import Mathlib

/-!
# go-backblaze `b2 get`: the download pipeline and its orchestrator

A shallow embedding of `src/b2/get.go`:

* `download` (get.go 100-140) and `progressWriter.Write` (get.go 94-98), together with the
  standard-library pieces they call (`io.Copy`, `io.MultiWriter`, `os.File.Write`,
  `crypto/sha1`, `encoding/hex`, `uiprogress.Bar`), as pure functions over an explicit
  stream, file system and disk;
* `Get.Execute` (get.go 32-87) as a transition system: the main goroutine and the
  launched goroutines take atomic steps under an arbitrary scheduler.

Modelling choices.  A stream is finite: a list of reads and an end (`io.EOF` or an error).
Shared variables are read and written atomically, one goroutine at a time, and a call of
`download` is one step of its goroutine.  Printing and the rendering of the progress bars
are not modelled.
-/

namespace B2

/-! ## Bytes, errors -/

/-- One byte. -/
abbrev Byte := Fin 256

/-- The error values that `download` and `Execute` handle.  `external c` stands for an
error value produced by a collaborator (operating system, network stream, storage
client); the other constructors are the error values created by the code itself or by
package `io`. -/
inductive Error where
  | external (code : Nat)
  | ErrShortWrite
  | ErrInvalidWrite
  | sha1Mismatch
  | bucketNotFound (bucket : String)
deriving DecidableEq

/-- The text of an error value (`err.Error()`). -/
def Error.text : Error → String
  | .external c => "external error " ++ toString c
  | .ErrShortWrite => "short write"
  | .ErrInvalidWrite => "invalid write result"
  | .sha1Mismatch => "Downloaded data does not match SHA1 hash"
  | .bucketNotFound b => "Bucket not found: " ++ b

/-! ## `crypto/sha1` and `encoding/hex` -/

/-- Rotate a 32-bit word left by `n` bits. -/
def rotl32 (x n : Nat) : Nat := ((x <<< n) ||| (x >>> (32 - n))) % 2 ^ 32

/-- SHA-1 padding: the message, one `0x80` byte, zero bytes up to 56 mod 64, and the bit
length as a 64-bit big-endian integer. -/
def sha1Pad (msg : List Byte) : List Nat :=
  let len := msg.length
  let zeros := (119 - len % 64) % 64
  let bits := (8 * len) % 2 ^ 64
  msg.map Fin.val ++ [0x80] ++ List.replicate zeros 0
    ++ (List.range 8).map (fun i => (bits >>> (8 * (7 - i))) % 256)

/-- Group bytes four by four into big-endian 32-bit words. -/
def beWords : List Nat → List Nat
  | a :: b :: c :: d :: rest => (a * 2 ^ 24 + b * 2 ^ 16 + c * 2 ^ 8 + d) :: beWords rest
  | _ => []

/-- Expand the 16 words of a block into the 80-word message schedule. -/
def sha1Schedule (w : List Nat) : List Nat :=
  (List.range 64).foldl
    (fun acc i =>
      let t := i + 16
      acc ++ [rotl32 (acc.getD (t - 3) 0 ^^^ acc.getD (t - 8) 0 ^^^ acc.getD (t - 14) 0
        ^^^ acc.getD (t - 16) 0) 1])
    w

/-- The five 32-bit chaining words of SHA-1. -/
structure Sha1State where
  h0 : Nat
  h1 : Nat
  h2 : Nat
  h3 : Nat
  h4 : Nat
deriving DecidableEq

/-- Initial chaining value. -/
def sha1Init : Sha1State := ⟨0x67452301, 0xEFCDAB89, 0x98BADCFE, 0x10325476, 0xC3D2E1F0⟩

/-- Round `t` of the compression function on schedule word `wt`. -/
def sha1Round (t : Nat) (wt : Nat) (s : Sha1State) : Sha1State :=
  let a := s.h0; let b := s.h1; let c := s.h2; let d := s.h3; let e := s.h4
  let f :=
    if t < 20 then (b &&& c) ||| ((b ^^^ 0xFFFFFFFF) &&& d)
    else if t < 40 then b ^^^ c ^^^ d
    else if t < 60 then (b &&& c) ||| (b &&& d) ||| (c &&& d)
    else b ^^^ c ^^^ d
  let k :=
    if t < 20 then 0x5A827999 else if t < 40 then 0x6ED9EBA1
    else if t < 60 then 0x8F1BBCDC else 0xCA62C1D6
  ⟨(rotl32 a 5 + f + e + k + wt) % 2 ^ 32, a, rotl32 b 30, c, d⟩

/-- Run the rounds over the schedule words, starting at round `t`. -/
def sha1RoundsAux : Nat → List Nat → Sha1State → Sha1State
  | _, [], s => s
  | t, wt :: ws, s => sha1RoundsAux (t + 1) ws (sha1Round t wt s)

/-- Compress one 64-byte block into the chaining value. -/
def sha1Block (s : Sha1State) (block : List Nat) : Sha1State :=
  let r := sha1RoundsAux 0 (sha1Schedule (beWords block)) s
  ⟨(s.h0 + r.h0) % 2 ^ 32, (s.h1 + r.h1) % 2 ^ 32, (s.h2 + r.h2) % 2 ^ 32,
   (s.h3 + r.h3) % 2 ^ 32, (s.h4 + r.h4) % 2 ^ 32⟩

/-- Compress `n` consecutive 64-byte blocks. -/
def sha1Blocks : Nat → List Nat → Sha1State → Sha1State
  | 0, _, s => s
  | n + 1, bytes, s => sha1Blocks n (bytes.drop 64) (sha1Block s (bytes.take 64))

/-- The four bytes of a 32-bit word, most significant first. -/
def wordBytes (w : Nat) : List Byte :=
  [Fin.ofNat (w >>> 24), Fin.ofNat (w >>> 16), Fin.ofNat (w >>> 8), Fin.ofNat w]

/-- The 20-byte SHA-1 digest of a message: what `sha.Sum(nil)` returns once the bytes of
`msg` have been written to `sha1.New()`. -/
def sha1Sum (msg : List Byte) : List Byte :=
  let p := sha1Pad msg
  let s := sha1Blocks (p.length / 64) p sha1Init
  wordBytes s.h0 ++ wordBytes s.h1 ++ wordBytes s.h2 ++ wordBytes s.h3 ++ wordBytes s.h4

/-- One hexadecimal digit, lowercase (the table `0123456789abcdef` of `encoding/hex`). -/
def hexDigit (n : Nat) : Char := "0123456789abcdef".toList.getD n '0'

/-- The function `hex.EncodeToString`: two lowercase hex digits per byte. -/
def hexEncodeToString (bs : List Byte) : String :=
  String.mk (bs.flatMap (fun b => [hexDigit (b.val / 16), hexDigit (b.val % 16)]))

/-- ASCII case folding of one character, as `strings.EqualFold` applies to hex digits. -/
def foldChar (c : Char) : Char := c.toLower

/-- Equality of two strings ignoring letter case: the comparison the specification
describes for the digest check. -/
def equalFold (a b : String) : Bool := a.toList.map foldChar == b.toList.map foldChar

/-! ## `uiprogress.Bar` -/

/-- The fields of `uiprogress.Bar` that the code touches. -/
structure Bar where
  Total : Int
  current : Int
  Width : Int
deriving DecidableEq

/-- The call `uiprogress.AddBar(total)`: a bar at zero with the library's default width. -/
def AddBar (total : Int) : Bar := { Total := total, current := 0, Width := 70 }

/-- The method `Bar.Current`. -/
def Bar.Current (b : Bar) : Int := b.current

/-- The method `Bar.Set`: refuses (returning an error the caller drops) a value above
`Total`, and stores any other value. -/
def Bar.Set (b : Bar) (n : Int) : Bar :=
  if n > b.Total then b else { b with current := n }

/-! ## The file system and the remote stream -/

/-- The operating system as `download` sees it.  `Dir` is `filepath.Dir`; `MkdirAll` and
`Create` answer `none` on success and an error code otherwise; `Write path contents b`
is the raw result of writing `b` to the file at `path` that currently holds `contents`:
the number of bytes the system accepted and its error code, if any. -/
structure FileSystem where
  Dir : String → String
  MkdirAll : String → Option Nat
  Create : String → Option Nat
  Write : String → List Byte → List Byte → Nat × Option Nat

/-- The files on disk: the contents of each path that holds a file. -/
abbrev Disk := String → Option (List Byte)

/-- An open `*os.File` (the value `os.Create` returns) with the bytes written so far. -/
structure OsFile where
  path : String
  contents : List Byte
deriving DecidableEq

/-- The method `os.File.Write`: the accepted bytes are appended to the file; the count is
at most `len(b)`; the error is the system's, or `io.ErrShortWrite` when fewer bytes than
`len(b)` were accepted without one. -/
def OsFile.Write (fs : FileSystem) (f : OsFile) (b : List Byte) : OsFile × Nat × Option Error :=
  let raw := fs.Write f.path f.contents b
  let n := min raw.1 b.length
  let err : Option Error :=
    match raw.2 with
    | some c => some (.external c)
    | none => if n ≠ b.length then some .ErrShortWrite else none
  ({ f with contents := f.contents ++ b.take n }, n, err)

/-- An `io.ReadCloser` handed out by the storage client: the data its successive `Read`
calls deliver, how the stream ends (`none` is `io.EOF`, `some c` a read error), and how
often `Close` has been called on it. -/
structure ReadCloser where
  reads : List (List Byte)
  final : Option Nat
  closes : Nat
deriving DecidableEq

/-- The method `Close` of the stream. -/
def ReadCloser.Close (r : ReadCloser) : ReadCloser := { r with closes := r.closes + 1 }

/-- All the bytes of a stream, in order. -/
def ReadCloser.bytes (r : ReadCloser) : List Byte := r.reads.flatten

/-- The fields of `backblaze.File` that the code reads. -/
structure File where
  Name : String
  ContentLength : Int
  ContentSha1 : String
deriving DecidableEq

/-! ## `progressWriter`, `io.MultiWriter`, `io.Copy` -/

/-- The struct `progressWriter` (get.go 89-92). -/
structure progressWriter where
  bar : Bar
  w : OsFile
deriving DecidableEq

/-- The method `progressWriter.Write` (get.go 94-98). -/
def progressWriter.Write (fs : FileSystem) (p : progressWriter) (b : List Byte) :
    progressWriter × Nat × Option Error :=
  let r := p.w.Write fs b
  let written := r.2.1
  let err := r.2.2
  ({ bar := p.bar.Set (p.bar.Current + written), w := r.1 }, written, err)

/-- The writer `io.MultiWriter(sha, &progressWriter{bar, writer})`: `sha` is the hash
state, represented by the bytes written to it so far. -/
structure Tee where
  sha : List Byte
  pw : progressWriter
deriving DecidableEq

/-- The method `multiWriter.Write`: each writer in turn gets the whole slice; the first
error, or a count other than `len(p)`, stops the fan-out.  The hash (first writer) never
fails and always accepts everything. -/
def Tee.Write (fs : FileSystem) (t : Tee) (p : List Byte) : Tee × Nat × Option Error :=
  let sha := t.sha ++ p
  let r := t.pw.Write fs p
  let n := r.2.1
  match r.2.2 with
  | some e => ({ sha := sha, pw := r.1 }, n, some e)
  | none =>
    if n ≠ p.length then ({ sha := sha, pw := r.1 }, n, some .ErrShortWrite)
    else ({ sha := sha, pw := r.1 }, p.length, none)

/-- The loop of `io.Copy(tee, reader)` over the data of the successive `Read` calls and
the way the stream ends.  Returns the writer's final state and the error of the copy. -/
def ioCopy (fs : FileSystem) : List (List Byte) → Option Nat → Tee → Tee × Option Error
  | [], final, dst => (dst, final.map Error.external)
  | b :: rest, final, dst =>
    if 0 < b.length then
      let r := dst.Write fs b
      let nw := r.2.1
      let ew := r.2.2
      let bad := decide (b.length < nw)
      let nw := if bad then 0 else nw
      let ew := if bad then some (ew.getD .ErrInvalidWrite) else ew
      match ew with
      | some e => (r.1, some e)
      | none => if b.length ≠ nw then (r.1, some .ErrShortWrite) else ioCopy fs rest final r.1
    else ioCopy fs rest final dst

/-! ## `download` -/

/-- What a call of `download` leaves behind: the returned error, the disk, the stream
(closed by the deferred `reader.Close()`), the progress bar, and how often the
destination file was closed. -/
structure Outcome where
  err : Option Error
  disk : Disk
  reader : ReadCloser
  bar : Bar
  writerCloses : Nat

/-- The function `download` (get.go 100-140). -/
def download (fs : FileSystem) (disk : Disk) (fileInfo : File) (reader : ReadCloser)
    (path : String) : Outcome :=
  -- defer reader.Close()
  let closed := reader.Close
  -- bar := uiprogress.AddBar(int(fileInfo.ContentLength)); bar.Width = 20
  let bar := { AddBar fileInfo.ContentLength with Width := 20 }
  match fs.MkdirAll (fs.Dir path) with
  | some c => { err := some (.external c), disk := disk, reader := closed, bar := bar,
                writerCloses := 0 }
  | none =>
    match fs.Create path with
    | some c => { err := some (.external c), disk := disk, reader := closed, bar := bar,
                  writerCloses := 0 }
    | none =>
      -- os.Create truncates; defer writer.Close()
      let tee : Tee := { sha := [], pw := { bar := bar, w := { path := path, contents := [] } } }
      let r := ioCopy fs reader.reads reader.final tee
      let disk1 : Disk := Function.update disk path (some r.1.pw.w.contents)
      match r.2 with
      | some e => { err := some e, disk := disk1, reader := closed, bar := r.1.pw.bar,
                    writerCloses := 1 }
      | none =>
        let sha1Hash := hexEncodeToString (sha1Sum r.1.sha)
        if sha1Hash ≠ fileInfo.ContentSha1 then
          { err := some .sha1Mismatch, disk := disk1, reader := closed, bar := r.1.pw.bar,
            writerCloses := 1 }
        else
          { err := none, disk := disk1, reader := closed, bar := r.1.pw.bar,
            writerCloses := 1 }

/-- Every write that a complete copy of `chunks` issues against a file holding `file`
is accepted in full and without error (empty reads issue no write). -/
def WritesSucceed (fs : FileSystem) (path : String) : List Byte → List (List Byte) → Prop
  | _, [] => True
  | file, b :: rest =>
    (b = [] ∨ fs.Write path file b = (b.length, none)) ∧ WritesSucceed fs path (file ++ b) rest

/-! ## `Get.Execute` -/

/-- What a successful `bucket.DownloadFileByName` returns: the file's metadata and a
fresh, not yet closed stream. -/
structure Handle where
  fileInfo : File
  reads : List (List Byte)
  final : Option Nat
deriving DecidableEq

/-- The stream of a handle as the storage client hands it out. -/
def Handle.reader (h : Handle) : ReadCloser := { reads := h.reads, final := h.final, closes := 0 }

/-- The lines 33-44 of `Execute`: the error returned before the download loop is reached,
if any.  `client` is the error of `Client()`, `bucket` the result of
`client.Bucket(opts.Bucket)`: an error, or whether a bucket was found. -/
def ExecuteSetup (client : Option Error) (bucket : Except Error Bool) (bucketName : String) :
    Option Error :=
  match client with
  | some e => some e
  | none =>
    match bucket with
    | .error e => some e
    | .ok false => some (.bucketNotFound bucketName)
    | .ok true => none

/-- The inputs of a run of the download loop of `Execute` (get.go 46-87), entered once the
bucket is resolved: `Threads` is `o.Threads`, `names` is `args`,
`DownloadFileByName i name` is the answer of the storage client to the `i`-th call (made
for `name`), `fs` the operating system.  `loopVarPerIteration` tells whether the range
variable `file` is a fresh variable in each iteration (Go 1.22 and later) or one variable
shared by all iterations and by the closures that capture it. -/
structure Config where
  Threads : Nat
  names : List String
  DownloadFileByName : Nat → String → Except Error Handle
  fs : FileSystem
  loopVarPerIteration : Bool

/-- Where a launched goroutine (get.go 69-81) stands: before `download`, after `download`
returned, after the `if err != nil` block, after the deferred `group.Done()`, and after
the deferred receive from `pool`. -/
inductive GoPc where
  | start
  | downloaded
  | recorded
  | released
  | exited
deriving DecidableEq

/-- A launched goroutine: the variables its closure captured (`reader` as the index of
the stream among the streams handed out so far, `fileInfo`, and the value `file` had at
launch), its position, and its local `err`. -/
structure Goroutine where
  reader : Nat
  fileInfo : File
  file : String
  pc : GoPc
  err : Option Error
deriving DecidableEq

/-- Where the main goroutine stands: at the head of the range loop (line 52/55), after a
failed fetch (line 57), before `pool <- true` (line 62), before the check of
`downloadError` (line 64), at `group.Wait()` (line 84), or returned. -/
inductive MainPc where
  | loop
  | fetchFailed (err : Error)
  | send (fileInfo : File) (reader : Nat)
  | check (fileInfo : File) (reader : Nat)
  | wait
  | returned (result : Option Error)
deriving DecidableEq

/-- The state of a run.  `next` counts the names consumed by the range loop, `file` is the
range variable, `pool` the number of tickets in the channel, `group` the counter of the
`WaitGroup`, `readers` the streams handed out by the storage client so far.  `fetched` and
`recorded` are history: the calls of `DownloadFileByName` made so far (name and error)
and the values assigned to `downloadError` so far, both in order. -/
structure State where
  pc : MainPc
  next : Nat
  file : String
  pool : Nat
  group : Nat
  downloadError : Option Error
  gos : List Goroutine
  readers : List ReadCloser
  disk : Disk
  fetched : List (String × Option Error)
  recorded : List Error

/-- The state at line 50: an empty pool, no goroutine, `downloadError` nil. -/
def init (disk : Disk) : State :=
  { pc := .loop, next := 0, file := "", pool := 0, group := 0, downloadError := none,
    gos := [], readers := [], disk := disk, fetched := [], recorded := [] }

/-- One step of the main goroutine; `none` when it is blocked or has returned. -/
def stepMain (cfg : Config) (s : State) : Option State :=
  match s.pc with
  | .loop =>
    match cfg.names[s.next]? with
    | none => some { s with pc := .wait }
    | some name =>
      -- fileInfo, reader, err := bucket.DownloadFileByName(file)
      match cfg.DownloadFileByName s.next name with
      | .error e =>
        some { s with file := name, next := s.next + 1, pc := .fetchFailed e,
                      fetched := s.fetched ++ [(name, some e)] }
      | .ok h =>
        some { s with file := name, next := s.next + 1,
                      pc := .send h.fileInfo s.readers.length,
                      readers := s.readers ++ [h.reader],
                      fetched := s.fetched ++ [(name, none)] }
  | .fetchFailed e =>
    -- downloadError = err; break
    some { s with downloadError := some e, recorded := s.recorded ++ [e], pc := .wait }
  | .send fileInfo reader =>
    -- pool <- true
    if s.pool < cfg.Threads then some { s with pool := s.pool + 1, pc := .check fileInfo reader }
    else none
  | .check fileInfo reader =>
    match s.downloadError with
    | some _ => some { s with pc := .wait }
    | none =>
      -- group.Add(1); go func() ...
      some { s with group := s.group + 1,
                    gos := s.gos ++ [{ reader := reader, fileInfo := fileInfo, file := s.file,
                                       pc := .start, err := none }],
                    pc := .loop }
  | .wait =>
    -- group.Wait(); return downloadError
    if s.group = 0 then some { s with pc := .returned s.downloadError } else none
  | .returned _ => none

/-- One step of the `k`-th launched goroutine; `none` when there is no such goroutine,
when it is blocked, or when it has exited. -/
def stepGo (cfg : Config) (s : State) (k : Nat) : Option State :=
  match s.gos[k]? with
  | none => none
  | some g =>
    match g.pc with
    | .start =>
      match s.readers[g.reader]? with
      | none => none
      | some rd =>
        -- err := download(fileInfo, reader, file)
        let path := if cfg.loopVarPerIteration then g.file else s.file
        let out := download cfg.fs s.disk g.fileInfo rd path
        some { s with disk := out.disk, readers := s.readers.set g.reader out.reader,
                      gos := s.gos.set k { g with pc := .downloaded, err := out.err } }
    | .downloaded =>
      match g.err with
      | some e =>
        -- fmt.Println(err); downloadError = err
        some { s with downloadError := some e, recorded := s.recorded ++ [e],
                      gos := s.gos.set k { g with pc := .recorded } }
      | none => some { s with gos := s.gos.set k { g with pc := .recorded } }
    | .recorded =>
      -- group.Done()
      if 0 < s.group then
        some { s with group := s.group - 1, gos := s.gos.set k { g with pc := .released } }
      else none
    | .released =>
      -- <-pool
      if 0 < s.pool then
        some { s with pool := s.pool - 1, gos := s.gos.set k { g with pc := .exited } }
      else none
    | .exited => none

/-- Who takes the next step. -/
inductive Action where
  | main
  | go (k : Nat)
deriving DecidableEq

/-- One step of the run under the scheduler's choice. -/
def step (cfg : Config) (s : State) : Action → Option State
  | .main => stepMain cfg s
  | .go k => stepGo cfg s k

/-- The scheduler's choice takes effect when that step is enabled; a goroutine that is
blocked or has finished stays where it is. -/
def stepOrStay (cfg : Config) (s : State) (a : Action) : State := (step cfg s a).getD s

/-- The state of the run after a schedule, started at line 50 on the given disk. -/
def after (cfg : Config) (disk : Disk) (sched : List Action) : State :=
  sched.foldl (stepOrStay cfg) (init disk)

/-- The states a run of the loop can reach from line 50 on the given disk. -/
inductive Reachable (cfg : Config) (disk : Disk) : State → Prop where
  | init : Reachable cfg disk (init disk)
  | step {s s1 : State} (a : Action) : Reachable cfg disk s → step cfg s a = some s1 →
      Reachable cfg disk s1

/-- Steps a goroutine at this position still has to take. -/
def GoPc.weight : GoPc → Nat
  | .start => 4
  | .downloaded => 3
  | .recorded => 2
  | .released => 1
  | .exited => 0

/-- An upper bound on the number of steps the run can still take. -/
def weight (cfg : Config) (s : State) : Nat :=
  (match s.pc with
    | .loop => 7 * (cfg.names.length - s.next) + 2
    | .fetchFailed _ => 2
    | .send _ _ => 7 * (cfg.names.length - s.next) + 8
    | .check _ _ => 7 * (cfg.names.length - s.next) + 7
    | .wait => 1
    | .returned _ => 0)
  + (s.gos.map (fun g => g.pc.weight)).sum

/-- The number of goroutines that have been launched and have not finished `download`. -/
def downloading (s : State) : Nat := s.gos.countP (fun g => g.pc = .start)

/-- The number of goroutines that have not yet given their ticket back. -/
def holding (s : State) : Nat := s.gos.countP (fun g => g.pc ≠ .exited)

/-- The number of goroutines that have not yet called `group.Done()`. -/
def pending (s : State) : Nat :=
  s.gos.countP (fun g => g.pc = .start ∨ g.pc = .downloaded ∨ g.pc = .recorded)

/-- Whether the main goroutine has returned. -/
def State.returned (s : State) : Bool :=
  match s.pc with
  | .returned _ => true
  | _ => false

end B2

namespace B2

/-! ## Invariants of the run -/

/-- Two writers that agree on everything but the progress bar. -/
def Tee.SameButBar (t u : Tee) : Prop := t.sha = u.sha ∧ t.pw.w = u.pw.w

/-- The accounting of tickets and of the wait group: the pool never exceeds its capacity,
every goroutine that has not exited holds a ticket, the main goroutine holds one more
between `pool <- true` and the launch, and the wait group counts the goroutines that have
not called `group.Done()`. -/
structure TicketInv (cfg : Config) (s : State) : Prop where
  pool_le : s.pool ≤ cfg.Threads
  hold_le : holding s ≤ s.pool
  hold_eq : (s.pc = .loop ∨ (∃ e, s.pc = .fetchFailed e) ∨ ∃ fi r, s.pc = .send fi r) →
    s.pool = holding s
  hold_check : ∀ fi r, s.pc = .check fi r → s.pool = holding s + 1
  group_eq : s.group = pending s

end B2

namespace B2

/-- The ownership of the streams: every goroutine holds a stream that was handed out, the
stream held by the main goroutine between fetch and launch is held by no goroutine, no two
goroutines hold the same stream, and a stream has been closed once for each goroutine that
holds it and has finished `download`. -/
structure ReaderInv (s : State) : Prop where
  lt : ∀ g ∈ s.gos, g.reader < s.readers.length
  held : ∀ fi r, (s.pc = .send fi r ∨ s.pc = .check fi r) →
    r < s.readers.length ∧ ∀ g ∈ s.gos, g.reader < r
  uniq : ∀ i, s.gos.countP (fun g => g.reader = i) ≤ 1
  closes : ∀ i rd, s.readers[i]? = some rd →
    rd.closes = s.gos.countP (fun g => g.reader = i ∧ g.pc ≠ .start)

end B2

namespace B2

/-- The error of the `j`-th call of `DownloadFileByName`, made for `name`; `none` when the
call succeeds. -/
def fetchError (cfg : Config) (j : Nat) (name : String) : Option Error :=
  match cfg.DownloadFileByName j name with
  | .error e => some e
  | .ok _ => none

/-- The calls of `DownloadFileByName` for the first `n` names, in the order of the names. -/
def fetchLog (cfg : Config) : Nat → List (String × Option Error)
  | 0 => []
  | n + 1 =>
    fetchLog cfg n ++
      (match cfg.names[n]? with
       | some name => [(name, fetchError cfg n name)]
       | none => [])

/-- Whether a goroutine is past its `if err != nil` block. -/
def GoPc.past (pc : GoPc) : Prop := pc = .recorded ∨ pc = .released ∨ pc = .exited

/-- The bookkeeping of `downloadError`: it holds the value assigned last; a returned run
returns it and has an empty wait group; a goroutine has no error before `download`
returns; while the loop runs no fetch has failed; after a failed fetch that failure is
the one about to be recorded; every recorded value is the error of a failed fetch or of
a pipeline, and every failed fetch and every failed pipeline past its record step has
been recorded; one stream was handed out for each successful fetch. -/
structure ErrInv (s : State) : Prop where
  err_last : s.downloadError = s.recorded.getLast?
  ret_eq : ∀ r, s.pc = .returned r → r = s.downloadError
  ret_group : ∀ r, s.pc = .returned r → s.group = 0
  fresh : ∀ g ∈ s.gos, g.pc = .start → g.err = none
  log_ok : (s.pc = .loop ∨ (∃ fi r, s.pc = .send fi r) ∨ ∃ fi r, s.pc = .check fi r) →
    ∀ x ∈ s.fetched, x.2 = none
  log_failed : ∀ e, s.pc = .fetchFailed e → ∃ name, (name, some e) ∈ s.fetched
  rec_sound : ∀ e ∈ s.recorded,
    (∃ name, (name, some e) ∈ s.fetched) ∨ ∃ g ∈ s.gos, g.err = some e ∧ g.pc.past
  rec_fetch : (∃ x ∈ s.fetched, x.2 ≠ none) → (∃ e, s.pc = .fetchFailed e) ∨ s.recorded ≠ []
  rec_go : ∀ g ∈ s.gos, g.err ≠ none → g.pc.past → s.recorded ≠ []
  handles : s.readers.length = s.fetched.countP (fun x => x.2 = none)

/-- The progress of the range loop: the history of fetches is the log of the names
consumed; only the last fetch can have failed, and only once the loop is left; the loop
is left with an error recorded or with every name fetched successfully. -/
structure FetchInv (cfg : Config) (s : State) : Prop where
  log : s.fetched = fetchLog cfg s.next
  next_le : s.next ≤ cfg.names.length
  ok_before : ∀ j name, j + 1 < s.next → cfg.names[j]? = some name →
    fetchError cfg j name = none
  ok_last : (s.pc = .loop ∨ (∃ fi r, s.pc = .send fi r) ∨ ∃ fi r, s.pc = .check fi r) →
    ∀ j name, j < s.next → cfg.names[j]? = some name → fetchError cfg j name = none
  left : (s.pc = .wait ∨ ∃ r, s.pc = .returned r) →
    s.downloadError ≠ none ∨
      (s.next = cfg.names.length ∧
        ∀ j name, j < s.next → cfg.names[j]? = some name → fetchError cfg j name = none)

end B2

namespace B2

/-- The launches follow the fetches: the `k`-th goroutine holds the `k`-th stream handed
out; while the loop runs every stream but the one just fetched has its goroutine; once the
loop is left at most the last stream has none, and then only with an error recorded. -/
structure LaunchInv (s : State) : Prop where
  order : s.gos.map (fun g => g.reader) = List.range s.gos.length
  looping : (s.pc = .loop ∨ ∃ e, s.pc = .fetchFailed e) → s.readers.length = s.gos.length
  held : ∀ fi r, (s.pc = .send fi r ∨ s.pc = .check fi r) →
    r = s.gos.length ∧ s.readers.length = s.gos.length + 1
  left : (s.pc = .wait ∨ ∃ r, s.pc = .returned r) →
    s.readers.length = s.gos.length ∨
      (s.readers.length = s.gos.length + 1 ∧ s.downloadError ≠ none)

end B2

namespace B2

/-- The failure that the step of `a` in state `s` reports: the error of the fetch that
just failed when the main goroutine stands at line 57, the error `download` returned when
goroutine `k` stands at line 77; `none` for every other step. -/
def failureAt (s : State) : Action → Option Error
  | .main =>
    match s.pc with
    | .fetchFailed e => some e
    | _ => none
  | .go k =>
    match s.gos[k]? with
    | some g => if g.pc = .downloaded then g.err else none
    | none => none

/-- The failures reported along a schedule started in `s`, in the order of the steps. -/
def failuresFrom (cfg : Config) : State → List Action → List Error
  | _, [] => []
  | s, a :: rest => (failureAt s a).toList ++ failuresFrom cfg (stepOrStay cfg s a) rest

/-- The failures reported along a schedule of the loop, in the order of the steps. -/
def failures (cfg : Config) (disk : Disk) (sched : List Action) : List Error :=
  failuresFrom cfg (init disk) sched

/-- The method `Get.Execute` (get.go 32-87) under a schedule: when the lines 33-44 return
an error the run has returned it without entering the loop; otherwise the run is the run
of the loop. -/
def Execute (client : Option Error) (bucket : Except Error Bool) (bucketName : String)
    (cfg : Config) (disk : Disk) (sched : List Action) : State :=
  match ExecuteSetup client bucket bucketName with
  | some e => { init disk with pc := .returned (some e) }
  | none => after cfg disk sched

/-- The path `download` is called with by goroutine `g` in state `s`: the value of the
range variable `file`, which is the goroutine's own copy or the shared variable. -/
def downloadPath (cfg : Config) (s : State) (g : Goroutine) : String :=
  if cfg.loopVarPerIteration then g.file else s.file

/-- The pipelines are the fetches: the `k`-th goroutine was launched for the `k`-th name
with the handle its fetch returned, and its stream is that handle's stream, untouched
before `download` and closed after; the handle the main goroutine holds between fetch and
launch is the one fetched for the current name. -/
structure PipeInv (cfg : Config) (s : State) : Prop where
  loop_next : s.pc = .loop → s.next = s.gos.length
  held : ∀ fi r, (s.pc = .send fi r ∨ s.pc = .check fi r) →
    s.next = s.gos.length + 1 ∧ r = s.gos.length ∧
    ∃ h, cfg.names[s.gos.length]? = some s.file ∧
      cfg.DownloadFileByName s.gos.length s.file = .ok h ∧ fi = h.fileInfo ∧
      s.readers[r]? = some h.reader
  gos : ∀ (k : Nat) (g : Goroutine), s.gos[k]? = some g →
    ∃ h, cfg.names[k]? = some g.file ∧ cfg.DownloadFileByName k g.file = .ok h ∧
      g.fileInfo = h.fileInfo ∧ g.reader = k ∧
      s.readers[k]? = some (if g.pc = .start then h.reader else h.reader.Close)

end B2

namespace B2

/-! ## Concrete inputs -/

/-- A file system on which every operation succeeds and every write is complete. -/
def okFs : FileSystem :=
  { Dir := fun _ => ".", MkdirAll := fun _ => none, Create := fun _ => none,
    Write := fun _ _ b => (b.length, none) }

/-- A file system whose disk is full: every write accepts nothing and reports error 28. -/
def fullFs : FileSystem :=
  { Dir := fun _ => ".", MkdirAll := fun _ => none, Create := fun _ => none,
    Write := fun _ _ _ => (0, some 28) }

/-- An empty disk. -/
def noDisk : Disk := fun _ => none

/-- The bytes of the text hello. -/
def helloBytes : List Byte := [104, 101, 108, 108, 111]

/-- A stream that delivers hello in one read and then ends. -/
def helloReader : ReadCloser := { reads := [helloBytes], final := none, closes := 0 }

/-- A stream that delivers hello and then breaks with error 104. -/
def brokenReader : ReadCloser := { reads := [helloBytes], final := some 104, closes := 0 }

/-- Metadata of hello with its digest in lowercase hex. -/
def helloInfo : File :=
  { Name := "a.txt", ContentLength := 5, ContentSha1 := "aaf4c61ddcc5e8a2dabede0f3b482cd9aea9434d" }

/-- Metadata of hello with its digest in uppercase hex. -/
def upperInfo : File :=
  { Name := "a.txt", ContentLength := 5, ContentSha1 := "AAF4C61DDCC5E8A2DABEDE0F3B482CD9AEA9434D" }

/-- Metadata with a digest that is not the digest of hello. -/
def wrongInfo : File :=
  { Name := "c.txt", ContentLength := 5, ContentSha1 := "0000000000000000000000000000000000000000" }

end B2

namespace B2

/-- A file system on which `a.txt` cannot be created (error 13) nor `b.txt` (error 17);
everything else succeeds. -/
def denyFs : FileSystem :=
  { Dir := fun _ => ".", MkdirAll := fun _ => none,
    Create := fun p => if p = "a.txt" then some 13 else if p = "b.txt" then some 17 else none,
    Write := fun _ _ b => (b.length, none) }

/-- A handle for hello. -/
def helloHandle : Handle := { fileInfo := helloInfo, reads := [helloBytes], final := none }

/-- Two names, a pool of two; both fetches succeed, neither file can be created. -/
def bothFetched : Config :=
  { Threads := 2, names := ["a.txt", "b.txt"],
    DownloadFileByName := fun _ _ => .ok helloHandle,
    fs := denyFs, loopVarPerIteration := true }

/-- Two names, a pool of two; the fetch of `a.txt` succeeds but the file cannot be
created, the fetch of `b.txt` fails with error 404. -/
def secondFetchFails : Config :=
  { Threads := 2, names := ["a.txt", "b.txt"],
    DownloadFileByName := fun _ name =>
      if name = "a.txt" then .ok helloHandle else .error (.external 404),
    fs := denyFs, loopVarPerIteration := true }

/-- Scenario B of the specification: two names, a pool of one, the fetch of `a.txt` fails
with error 404. -/
def firstFetchFails : Config :=
  { Threads := 1, names := ["a.txt", "b.txt"],
    DownloadFileByName := fun _ name =>
      if name = "a.txt" then .error (.external 404) else .ok helloHandle,
    fs := okFs, loopVarPerIteration := true }

/-- Scenario A of the specification: one name, a pool of five, everything succeeds. -/
def scenarioA : Config :=
  { Threads := 5, names := ["a.txt"],
    DownloadFileByName := fun _ _ => .ok helloHandle,
    fs := okFs, loopVarPerIteration := true }

end B2

namespace B2

/-- One name and a pool of capacity zero; the fetch succeeds. -/
def zeroThreads : Config :=
  { Threads := 0, names := ["a.txt"],
    DownloadFileByName := fun _ _ => .ok helloHandle,
    fs := okFs, loopVarPerIteration := true }

/-- No name at all, a pool of five. -/
def noNames : Config :=
  { Threads := 5, names := [],
    DownloadFileByName := fun _ _ => .ok helloHandle,
    fs := okFs, loopVarPerIteration := true }

end B2

namespace B2

/-! ## Lemmas on the copy -/

theorem osFile_write_full (fs : FileSystem) (f : OsFile) (b : List Byte)
    (h : fs.Write f.path f.contents b = (b.length, none)) :
    f.Write fs b = ({ f with contents := f.contents ++ b }, b.length, none) := by
  simp [OsFile.Write, h]

theorem tee_write_full (fs : FileSystem) (t : Tee) (b : List Byte)
    (h : fs.Write t.pw.w.path t.pw.w.contents b = (b.length, none)) :
    (t.Write fs b).2 = (b.length, none) ∧ (t.Write fs b).1.sha = t.sha ++ b ∧
      (t.Write fs b).1.pw.w = { t.pw.w with contents := t.pw.w.contents ++ b } := by
  simp [Tee.Write, progressWriter.Write, osFile_write_full fs t.pw.w b h]

theorem ioCopy_of_writesSucceed (fs : FileSystem) (path : String) (final : Option Nat) :
    ∀ (chunks : List (List Byte)) (t : Tee), t.pw.w.path = path →
      WritesSucceed fs path t.pw.w.contents chunks →
      (ioCopy fs chunks final t).2 = final.map Error.external ∧
      (ioCopy fs chunks final t).1.sha = t.sha ++ chunks.flatten ∧
      (ioCopy fs chunks final t).1.pw.w = { path := path, contents := t.pw.w.contents ++ chunks.flatten }
  | [], t, hp, _ => by
    cases t with
    | mk sha pw => cases pw with
      | mk bar w => cases w with
        | mk p c => simp at hp; simp [ioCopy, hp]
  | b :: rest, t, hp, hw => by
    obtain ⟨hb, hrest⟩ := hw
    by_cases hlen : 0 < b.length
    · have hne : b ≠ [] := by
        intro h
        simp [h] at hlen
      have hwr : fs.Write t.pw.w.path t.pw.w.contents b = (b.length, none) := by
        rcases hb with hb | hb
        · exact absurd hb hne
        · rw [hp]; exact hb
      obtain ⟨h1, h2, h3⟩ := tee_write_full fs t b hwr
      have hp1 : (t.Write fs b).1.pw.w.path = path := by rw [h3]; exact hp
      have hc1 : (t.Write fs b).1.pw.w.contents = t.pw.w.contents ++ b := by rw [h3]
      have ih := ioCopy_of_writesSucceed fs path final rest (t.Write fs b).1 hp1
        (by rw [hc1]; exact hrest)
      have hstep : ioCopy fs (b :: rest) final t = ioCopy fs rest final (t.Write fs b).1 := by
        have h21 : (t.Write fs b).2.1 = b.length := by rw [h1]
        have h22 : (t.Write fs b).2.2 = none := by rw [h1]
        simp [ioCopy, hlen, h21, h22]
      rw [hstep]
      refine ⟨ih.1, ?_, ?_⟩
      · rw [ih.2.1, h2]; simp
      · rw [ih.2.2, hc1]; simp
    · have hnil : b = [] := by
        cases b with
        | nil => rfl
        | cons x xs => simp at hlen
      subst hnil
      have hstep : ioCopy fs ([] :: rest) final t = ioCopy fs rest final t := by
        simp [ioCopy]
      rw [hstep]
      have ih := ioCopy_of_writesSucceed fs path final rest t hp (by simpa using hrest)
      simpa using ih

end B2

namespace B2

theorem download_of_copy (fs : FileSystem) (disk : Disk) (fileInfo : File)
    (reader : ReadCloser) (path : String)
    (hmk : fs.MkdirAll (fs.Dir path) = none) (hcr : fs.Create path = none)
    (hwr : WritesSucceed fs path [] reader.reads) :
    (download fs disk fileInfo reader path).err =
      (match reader.final with
       | some c => some (.external c)
       | none =>
         if hexEncodeToString (sha1Sum reader.bytes) ≠ fileInfo.ContentSha1
         then some .sha1Mismatch else none) ∧
    (download fs disk fileInfo reader path).disk path = some reader.bytes := by
  obtain ⟨h1, h2, h3⟩ := ioCopy_of_writesSucceed fs path reader.final reader.reads
    { sha := [], pw := { bar := { AddBar fileInfo.ContentLength with Width := 20 },
                         w := { path := path, contents := [] } } } rfl hwr
  simp only [List.nil_append] at h2 h3
  unfold download
  simp only [hmk, hcr, h1, h2, h3, ReadCloser.bytes]
  cases reader.final with
  | some c => simp
  | none =>
    by_cases hsha : hexEncodeToString (sha1Sum reader.reads.flatten) = fileInfo.ContentSha1
    · simp [hsha]
    · simp [hsha]

theorem osFile_write_count_le (fs : FileSystem) (f : OsFile) (b : List Byte) :
    (f.Write fs b).2.1 ≤ b.length := by
  simp [OsFile.Write]

theorem osFile_write_err_ne (fs : FileSystem) (f : OsFile) (b : List Byte) (e : Error)
    (h : (f.Write fs b).2.2 = some e) : e ≠ .sha1Mismatch := by
  unfold OsFile.Write at h
  simp only at h
  split at h
  · simp at h; subst h; simp
  · split at h
    · simp at h; subst h; simp
    · simp at h

theorem ioCopy_write_fails (fs : FileSystem) (path : String) (final : Option Nat)
    (b : List Byte) (post : List (List Byte)) (e : Error) (hb : b ≠ []) :
    ∀ (pre : List (List Byte)) (t : Tee), t.pw.w.path = path →
      WritesSucceed fs path t.pw.w.contents pre →
      (OsFile.Write fs { path := path, contents := t.pw.w.contents ++ pre.flatten } b).2.2 = some e →
      (ioCopy fs (pre ++ b :: post) final t).2 = some e
  | [], t, hp, _, hf => by
    have hlen : 0 < b.length := List.length_pos.mpr hb
    have hw : t.pw.w = { path := path, contents := t.pw.w.contents } := by
      cases t with
      | mk sha pw => cases pw with
        | mk bar w => cases w with
          | mk p c => simp at hp; simp [hp]
    simp only [List.flatten_nil, List.append_nil] at hf
    rw [← hw] at hf
    have hle := osFile_write_count_le fs t.pw.w b
    have hnot : ¬ b.length < (t.pw.w.Write fs b).2.1 := Nat.not_lt.mpr hle
    simp [ioCopy, hlen, Tee.Write, progressWriter.Write, hf, hnot]
  | c :: pre, t, hp, hw, hf => by
    obtain ⟨hc, hrest⟩ := hw
    by_cases hlen : 0 < c.length
    · have hne : c ≠ [] := by
        intro h
        simp [h] at hlen
      have hwr : fs.Write t.pw.w.path t.pw.w.contents c = (c.length, none) := by
        rcases hc with hc | hc
        · exact absurd hc hne
        · rw [hp]; exact hc
      obtain ⟨h1, _, h3⟩ := tee_write_full fs t c hwr
      have hp1 : (t.Write fs c).1.pw.w.path = path := by rw [h3]; exact hp
      have hc1 : (t.Write fs c).1.pw.w.contents = t.pw.w.contents ++ c := by rw [h3]
      have ih := ioCopy_write_fails fs path final b post e hb pre (t.Write fs c).1 hp1
        (by rw [hc1]; exact hrest) (by rw [hc1]; simpa using hf)
      have hstep : ioCopy fs ((c :: pre) ++ b :: post) final t
          = ioCopy fs (pre ++ b :: post) final (t.Write fs c).1 := by
        have h21 : (t.Write fs c).2.1 = c.length := by rw [h1]
        have h22 : (t.Write fs c).2.2 = none := by rw [h1]
        simp [ioCopy, hlen, h21, h22]
      rw [hstep]; exact ih
    · have hnil : c = [] := by
        cases c with
        | nil => rfl
        | cons x xs => simp at hlen
      subst hnil
      have hstep : ioCopy fs (([] :: pre) ++ b :: post) final t
          = ioCopy fs (pre ++ b :: post) final t := by
        simp [ioCopy]
      rw [hstep]
      exact ioCopy_write_fails fs path final b post e hb pre t hp (by simpa using hrest)
        (by simpa using hf)

theorem download_of_copy_error (fs : FileSystem) (disk : Disk) (fileInfo : File)
    (reader : ReadCloser) (path : String) (e : Error)
    (hmk : fs.MkdirAll (fs.Dir path) = none) (hcr : fs.Create path = none)
    (h : (ioCopy fs reader.reads reader.final
      { sha := [], pw := { bar := { AddBar fileInfo.ContentLength with Width := 20 },
                           w := { path := path, contents := [] } } }).2 = some e) :
    (download fs disk fileInfo reader path).err = some e := by
  simp [download, hmk, hcr, h]

theorem tee_write_sameButBar (fs : FileSystem) (t u : Tee) (b : List Byte)
    (h : Tee.SameButBar t u) :
    (t.Write fs b).2 = (u.Write fs b).2 ∧ Tee.SameButBar (t.Write fs b).1 (u.Write fs b).1 := by
  obtain ⟨h1, h2⟩ := h
  unfold Tee.Write progressWriter.Write
  simp only [h1, h2]
  cases (u.pw.w.Write fs b).2.2 with
  | some e => simp [Tee.SameButBar]
  | none =>
    by_cases hn : (u.pw.w.Write fs b).2.1 = b.length
    · simp [Tee.SameButBar, hn]
    · simp [Tee.SameButBar, hn]

theorem ioCopy_sameButBar (fs : FileSystem) (final : Option Nat) :
    ∀ (chunks : List (List Byte)) (t u : Tee), Tee.SameButBar t u →
      (ioCopy fs chunks final t).2 = (ioCopy fs chunks final u).2 ∧
      Tee.SameButBar (ioCopy fs chunks final t).1 (ioCopy fs chunks final u).1
  | [], t, u, h => by simp [ioCopy, h]
  | b :: rest, t, u, h => by
    obtain ⟨hw2, hw1⟩ := tee_write_sameButBar fs t u b h
    have ih := ioCopy_sameButBar fs final rest _ _ hw1
    have ih0 := ioCopy_sameButBar fs final rest t u h
    by_cases hlen : 0 < b.length
    · have e1 : (t.Write fs b).2.1 = (u.Write fs b).2.1 := by rw [hw2]
      have e2 : (t.Write fs b).2.2 = (u.Write fs b).2.2 := by rw [hw2]
      by_cases hbad : b.length < (u.Write fs b).2.1
      · simp [ioCopy, hlen, e1, e2, hbad, hw1]
      · cases hew : (u.Write fs b).2.2 with
        | some e => simp [ioCopy, hlen, e1, e2, hbad, hew, hw1]
        | none =>
          by_cases hn : b.length = (u.Write fs b).2.1
          · have hstep : ∀ v : Tee, (v.Write fs b).2.1 = (u.Write fs b).2.1 →
                (v.Write fs b).2.2 = (u.Write fs b).2.2 →
                ioCopy fs (b :: rest) final v = ioCopy fs rest final (v.Write fs b).1 := by
              intro v h1 h2
              simp [ioCopy, hlen, h1, h2, hew, ← hn]
            rw [hstep t e1 e2, hstep u rfl rfl]
            exact ih
          · simp [ioCopy, hlen, e1, e2, hbad, hew, hn, hw1]
    · simp only [ioCopy, hlen, if_false]
      exact ih0

end B2

namespace B2

/-! ## Inversion of the step functions -/

theorem download_reader (fs : FileSystem) (disk : Disk) (fileInfo : File) (reader : ReadCloser)
    (path : String) : (download fs disk fileInfo reader path).reader = reader.Close := by
  unfold download
  cases fs.MkdirAll (fs.Dir path) with
  | some c => rfl
  | none =>
    cases fs.Create path with
    | some c => rfl
    | none =>
      simp only
      split
      · rfl
      · split <;> rfl

theorem getElem?_split {α : Type} : ∀ (l : List α) (k : Nat) (g : α), l[k]? = some g →
    ∃ l1 l2, l = l1 ++ g :: l2 ∧ l1.length = k ∧ ∀ g1, l.set k g1 = l1 ++ g1 :: l2
  | [], k, g, h => by simp at h
  | x :: xs, 0, g, h => by
    simp at h
    subst h
    exact ⟨[], xs, rfl, rfl, fun g1 => rfl⟩
  | x :: xs, k + 1, g, h => by
    simp at h
    obtain ⟨l1, l2, h1, h2, h3⟩ := getElem?_split xs k g h
    refine ⟨x :: l1, l2, by simp [h1], by simp [h2], fun g1 => ?_⟩
    simp [h3 g1]

/-- The five ways a goroutine can step. -/
theorem stepGo_inv {cfg : Config} {s s1 : State} {k : Nat} (h : stepGo cfg s k = some s1) :
    ∃ l1 g l2, s.gos = l1 ++ g :: l2 ∧ l1.length = k ∧
      ((g.pc = .start ∧ ∃ rd out, s.readers[g.reader]? = some rd ∧
          out = download cfg.fs s.disk g.fileInfo rd
            (if cfg.loopVarPerIteration then g.file else s.file) ∧
          s1 = { s with disk := out.disk, readers := s.readers.set g.reader rd.Close,
                        gos := l1 ++ { g with pc := .downloaded, err := out.err } :: l2 }) ∨
       (g.pc = .downloaded ∧ ∃ e, g.err = some e ∧
          s1 = { s with downloadError := some e, recorded := s.recorded ++ [e],
                        gos := l1 ++ { g with pc := .recorded } :: l2 }) ∨
       (g.pc = .downloaded ∧ g.err = none ∧
          s1 = { s with gos := l1 ++ { g with pc := .recorded } :: l2 }) ∨
       (g.pc = .recorded ∧ 0 < s.group ∧
          s1 = { s with group := s.group - 1, gos := l1 ++ { g with pc := .released } :: l2 }) ∨
       (g.pc = .released ∧ 0 < s.pool ∧
          s1 = { s with pool := s.pool - 1, gos := l1 ++ { g with pc := .exited } :: l2 })) := by
  unfold stepGo at h
  cases hg : s.gos[k]? with
  | none => simp [hg] at h
  | some g =>
    obtain ⟨l1, l2, h1, h2, h3⟩ := getElem?_split s.gos k g hg
    refine ⟨l1, g, l2, h1, h2, ?_⟩
    simp only [hg] at h
    cases hpc : g.pc with
    | start =>
      simp only [hpc] at h
      cases hrd : s.readers[g.reader]? with
      | none => simp [hrd] at h
      | some rd =>
        simp only [hrd, Option.some.injEq] at h
        left
        refine ⟨rfl, rd, _, rfl, rfl, ?_⟩
        rw [← h, h3, download_reader]
    | downloaded =>
      simp only [hpc] at h
      cases he : g.err with
      | some e =>
        simp only [he, Option.some.injEq] at h
        right; left
        exact ⟨rfl, e, rfl, by rw [← h, h3]⟩
      | none =>
        simp only [he, Option.some.injEq] at h
        right; right; left
        exact ⟨rfl, rfl, by rw [← h, h3]⟩
    | recorded =>
      simp only [hpc] at h
      by_cases hgr : 0 < s.group
      · simp only [hgr, if_true, Option.some.injEq] at h
        right; right; right; left
        exact ⟨rfl, hgr, by rw [← h, h3]⟩
      · simp [hgr] at h
    | released =>
      simp only [hpc] at h
      by_cases hp : 0 < s.pool
      · simp only [hp, if_true, Option.some.injEq] at h
        right; right; right; right
        exact ⟨rfl, hp, by rw [← h, h3]⟩
      · simp [hp] at h
    | exited => simp [hpc] at h

/-- The ways the main goroutine can step. -/
theorem stepMain_inv {cfg : Config} {s s1 : State} (h : stepMain cfg s = some s1) :
    (s.pc = .loop ∧ cfg.names[s.next]? = none ∧ s1 = { s with pc := .wait }) ∨
    (s.pc = .loop ∧ ∃ name e, cfg.names[s.next]? = some name ∧
        cfg.DownloadFileByName s.next name = .error e ∧
        s1 = { s with file := name, next := s.next + 1, pc := .fetchFailed e,
                      fetched := s.fetched ++ [(name, some e)] }) ∨
    (s.pc = .loop ∧ ∃ name hd, cfg.names[s.next]? = some name ∧
        cfg.DownloadFileByName s.next name = .ok hd ∧
        s1 = { s with file := name, next := s.next + 1,
                      pc := .send hd.fileInfo s.readers.length,
                      readers := s.readers ++ [hd.reader],
                      fetched := s.fetched ++ [(name, none)] }) ∨
    (∃ e, s.pc = .fetchFailed e ∧
        s1 = { s with downloadError := some e, recorded := s.recorded ++ [e], pc := .wait }) ∨
    (∃ fi r, s.pc = .send fi r ∧ s.pool < cfg.Threads ∧
        s1 = { s with pool := s.pool + 1, pc := .check fi r }) ∨
    (∃ fi r e, s.pc = .check fi r ∧ s.downloadError = some e ∧ s1 = { s with pc := .wait }) ∨
    (∃ fi r, s.pc = .check fi r ∧ s.downloadError = none ∧
        s1 = { s with group := s.group + 1,
                      gos := s.gos ++ [{ reader := r, fileInfo := fi, file := s.file,
                                         pc := .start, err := none }],
                      pc := .loop }) ∨
    (s.pc = .wait ∧ s.group = 0 ∧ s1 = { s with pc := .returned s.downloadError }) := by
  unfold stepMain at h
  cases hpc : s.pc with
  | loop =>
    simp only [hpc] at h
    cases hn : cfg.names[s.next]? with
    | none =>
      simp only [hn, Option.some.injEq] at h
      exact Or.inl ⟨rfl, rfl, h.symm⟩
    | some name =>
      simp only [hn] at h
      cases hf : cfg.DownloadFileByName s.next name with
      | error e =>
        simp only [hf, Option.some.injEq] at h
        exact Or.inr (Or.inl ⟨rfl, name, e, rfl, hf, h.symm⟩)
      | ok hd =>
        simp only [hf, Option.some.injEq] at h
        exact Or.inr (Or.inr (Or.inl ⟨rfl, name, hd, rfl, hf, h.symm⟩))
  | fetchFailed e =>
    simp only [hpc, Option.some.injEq] at h
    exact Or.inr (Or.inr (Or.inr (Or.inl ⟨e, rfl, h.symm⟩)))
  | send fi r =>
    simp only [hpc] at h
    by_cases hp : s.pool < cfg.Threads
    · simp only [hp, if_true, Option.some.injEq] at h
      exact Or.inr (Or.inr (Or.inr (Or.inr (Or.inl ⟨fi, r, rfl, hp, h.symm⟩))))
    · simp [hp] at h
  | check fi r =>
    simp only [hpc] at h
    cases hd : s.downloadError with
    | some e =>
      simp only [hd, Option.some.injEq] at h
      exact Or.inr (Or.inr (Or.inr (Or.inr (Or.inr (Or.inl ⟨fi, r, e, rfl, rfl, h.symm⟩)))))
    | none =>
      simp only [hd, Option.some.injEq] at h
      exact Or.inr (Or.inr (Or.inr (Or.inr (Or.inr (Or.inr (Or.inl ⟨fi, r, rfl, rfl, h.symm⟩))))))
  | wait =>
    simp only [hpc] at h
    by_cases hg : s.group = 0
    · rw [if_pos hg] at h
      simp only [Option.some.injEq] at h
      exact Or.inr (Or.inr (Or.inr (Or.inr (Or.inr (Or.inr (Or.inr ⟨rfl, hg, h.symm⟩))))))
    · simp [hg] at h
  | returned r => simp [hpc] at h

end B2

namespace B2

theorem ticketInv_init (cfg : Config) (disk : Disk) : TicketInv cfg (init disk) := by
  constructor <;> simp [init, holding, pending]

theorem ticketInv_step {cfg : Config} {s s1 : State} {a : Action} (h : TicketInv cfg s)
    (hs : step cfg s a = some s1) : TicketInv cfg s1 := by
  obtain ⟨h1, h2, h3, h4, h5⟩ := h
  cases a with
  | main =>
    rcases stepMain_inv hs with ⟨hpc, _, rfl⟩ | ⟨hpc, _, _, _, _, rfl⟩ | ⟨hpc, _, _, _, _, rfl⟩ |
      ⟨e, hpc, rfl⟩ | ⟨fi, r, hpc, hp, rfl⟩ | ⟨fi, r, e, hpc, _, rfl⟩ | ⟨fi, r, hpc, _, rfl⟩ |
      ⟨hpc, hg, rfl⟩
    all_goals
      simp only [hpc, false_or, or_false, or_true, true_or, exists_false, reduceCtorEq,
        MainPc.send.injEq, MainPc.check.injEq, MainPc.fetchFailed.injEq, exists_eq', exists_and_left,
        exists_eq, and_true, forall_const, false_implies, implies_true, true_implies,
        exists_const] at h3 h4
      constructor <;>
        simp [holding, pending, List.countP_append, List.countP_cons] at h1 h2 h3 h4 h5 ⊢ <;>
        omega
  | go k =>
    obtain ⟨l1, g, l2, hgos, _, hcase⟩ := stepGo_inv hs
    simp only [holding, pending, hgos, List.countP_append, List.countP_cons] at h2 h3 h4 h5
    rcases hcase with ⟨hpc, rd, out, _, _, rfl⟩ | ⟨hpc, e, _, rfl⟩ | ⟨hpc, _, rfl⟩ |
      ⟨hpc, hg, rfl⟩ | ⟨hpc, hp, rfl⟩
    all_goals
      simp only [hpc] at h2 h3 h4 h5
      refine ⟨?_, ?_, fun hp => ?_, fun fi r hp => ?_, ?_⟩
    all_goals
      first
        | (have e3 := h3 hp
           simp [holding, pending, List.countP_append, List.countP_cons] at h1 h2 e3 h5 ⊢
           omega)
        | (have e4 := h4 fi r hp
           simp [holding, pending, List.countP_append, List.countP_cons] at h1 h2 e4 h5 ⊢
           omega)
        | (simp [holding, pending, List.countP_append, List.countP_cons] at h1 h2 h5 ⊢
           omega)

end B2

namespace B2

theorem lt_of_getElem?_some {α : Type} {l : List α} {k : Nat} {x : α} (h : l[k]? = some x) :
    k < l.length := by
  by_contra hk
  have : l[k]? = none := List.getElem?_eq_none (Nat.le_of_not_lt hk)
  rw [this] at h
  exact Option.noConfusion h

theorem reachable_ticketInv {cfg : Config} {disk : Disk} {s : State}
    (h : Reachable cfg disk s) : TicketInv cfg s := by
  induction h with
  | init => exact ticketInv_init cfg disk
  | step a _ hs ih => exact ticketInv_step ih hs

/-- Every step lowers the weight: no run is longer than the weight of its first state. -/
theorem weight_step {cfg : Config} {s s1 : State} {a : Action}
    (hs : step cfg s a = some s1) : weight cfg s1 < weight cfg s := by
  cases a with
  | main =>
    rcases stepMain_inv hs with ⟨hpc, _, rfl⟩ | ⟨hpc, _, _, hn, _, rfl⟩ | ⟨hpc, _, _, hn, _, rfl⟩ |
      ⟨e, hpc, rfl⟩ | ⟨fi, r, hpc, hp, rfl⟩ | ⟨fi, r, e, hpc, _, rfl⟩ | ⟨fi, r, hpc, _, rfl⟩ |
      ⟨hpc, hg, rfl⟩
    all_goals
      try have hlt := lt_of_getElem?_some hn
      simp only [weight, hpc, List.map_append, List.sum_append, List.map_cons, List.map_nil,
        List.sum_cons, List.sum_nil, GoPc.weight]
      omega
  | go k =>
    obtain ⟨l1, g, l2, hgos, _, hcase⟩ := stepGo_inv hs
    rcases hcase with ⟨hpc, rd, out, _, _, rfl⟩ | ⟨hpc, e, _, rfl⟩ | ⟨hpc, _, rfl⟩ |
      ⟨hpc, hg, rfl⟩ | ⟨hpc, hp, rfl⟩
    all_goals
      simp only [weight, hgos, hpc, List.map_append, List.sum_append, List.map_cons,
        List.sum_cons, GoPc.weight]
      omega

end B2

namespace B2

theorem readerInv_init (disk : Disk) : ReaderInv (init disk) := by
  constructor <;> simp [init]

theorem readerInv_stepMain {cfg : Config} {s s1 : State} (h : ReaderInv s)
    (hs : stepMain cfg s = some s1) : ReaderInv s1 := by
  obtain ⟨h1, h2, h3, h4⟩ := h
  rcases stepMain_inv hs with ⟨hpc, _, rfl⟩ | ⟨hpc, _, _, _, _, rfl⟩ | ⟨hpc, name, hd, _, _, rfl⟩ |
    ⟨e, hpc, rfl⟩ | ⟨fi, r, hpc, hp, rfl⟩ | ⟨fi, r, e, hpc, _, rfl⟩ | ⟨fi, r, hpc, _, rfl⟩ |
    ⟨hpc, hg, rfl⟩
  · exact ⟨h1, by simp, h3, h4⟩
  · exact ⟨h1, by simp, h3, h4⟩
  · refine ⟨fun g hg => ?_, ?_, h3, fun i rd hi => ?_⟩
    · have := h1 g hg
      simp only [List.length_append, List.length_singleton]
      omega
    · intro fi r hr
      simp only [MainPc.send.injEq, reduceCtorEq, or_false] at hr
      obtain ⟨_, rfl⟩ := hr
      exact ⟨by simp, h1⟩
    · simp only at hi
      by_cases hlt : i < s.readers.length
      · rw [List.getElem?_append_left hlt] at hi
        exact h4 i rd hi
      · have hle : s.readers.length ≤ i := Nat.le_of_not_lt hlt
        rw [List.getElem?_append_right hle] at hi
        have hz : s.gos.countP (fun g => g.reader = i ∧ g.pc ≠ .start) = 0 := by
          rw [List.countP_eq_zero]
          intro g hg
          have := h1 g hg
          simp only [decide_eq_true_eq, not_and]
          intro hgi
          omega
        simp only [hz]
        cases hsub : i - s.readers.length with
        | zero =>
          rw [hsub] at hi
          simp only [List.getElem?_cons_zero, Option.some.injEq] at hi
          rw [← hi]
          rfl
        | succ m =>
          rw [hsub] at hi
          simp at hi
  · exact ⟨h1, by simp, h3, h4⟩
  · refine ⟨h1, fun fi1 r1 hr => ?_, h3, h4⟩
    simp only [reduceCtorEq, MainPc.check.injEq, false_or] at hr
    obtain ⟨hfi, hr1⟩ := hr
    subst hfi hr1
    exact h2 _ _ (Or.inl hpc)
  · exact ⟨h1, by simp, h3, h4⟩
  · obtain ⟨hr, hall⟩ := h2 fi r (Or.inr hpc)
    refine ⟨fun g hg => ?_, by simp, fun i => ?_, fun i rd hi => ?_⟩
    · simp only [List.mem_append, List.mem_singleton] at hg
      rcases hg with hg | rfl
      · exact h1 g hg
      · exact hr
    · simp only [List.countP_append, List.countP_cons, List.countP_nil]
      by_cases hir : r = i
      · have hz : s.gos.countP (fun g => g.reader = i) = 0 := by
          rw [List.countP_eq_zero]
          intro g hg
          have := hall g hg
          simp only [decide_eq_true_eq]
          omega
        simp [hz, hir]
      · have := h3 i
        simp [hir]
        exact this
    · have := h4 i rd hi
      simpa [List.countP_append, List.countP_cons] using this
  · exact ⟨h1, by simp, h3, h4⟩

theorem readerInv_stepGo {cfg : Config} {s s1 : State} {k : Nat} (h : ReaderInv s)
    (hs : stepGo cfg s k = some s1) : ReaderInv s1 := by
  obtain ⟨h1, h2, h3, h4⟩ := h
  obtain ⟨l1, g, l2, hgos, _, hcase⟩ := stepGo_inv hs
  have mem_iff : ∀ (g1 : Goroutine), g1.reader = g.reader →
      ∀ x ∈ l1 ++ g1 :: l2, x.reader < s.readers.length := by
    intro g1 hg1 x hx
    simp only [List.mem_append, List.mem_cons] at hx
    rcases hx with hx | rfl | hx
    · exact h1 x (by rw [hgos]; simp [hx])
    · rw [hg1]; exact h1 g (by rw [hgos]; simp)
    · exact h1 x (by rw [hgos]; simp [hx])
  have held_iff : ∀ (g1 : Goroutine), g1.reader = g.reader →
      ∀ fi r, (s.pc = .send fi r ∨ s.pc = .check fi r) →
        r < s.readers.length ∧ ∀ x ∈ l1 ++ g1 :: l2, x.reader < r := by
    intro g1 hg1 fi r hr
    obtain ⟨ha, hb⟩ := h2 fi r hr
    refine ⟨ha, fun x hx => ?_⟩
    simp only [List.mem_append, List.mem_cons] at hx
    rcases hx with hx | rfl | hx
    · exact hb x (by rw [hgos]; simp [hx])
    · rw [hg1]; exact hb g (by rw [hgos]; simp)
    · exact hb x (by rw [hgos]; simp [hx])
  have uniq_iff : ∀ (g1 : Goroutine), g1.reader = g.reader →
      ∀ i, (l1 ++ g1 :: l2).countP (fun x => x.reader = i) ≤ 1 := by
    intro g1 hg1 i
    have := h3 i
    rw [hgos] at this
    simpa [List.countP_append, List.countP_cons, hg1] using this
  have closes_same : ∀ (g1 : Goroutine), g1.reader = g.reader → g.pc ≠ .start →
      g1.pc ≠ .start → ∀ i rd, s.readers[i]? = some rd →
        rd.closes = (l1 ++ g1 :: l2).countP (fun x => x.reader = i ∧ x.pc ≠ .start) := by
    intro g1 hg1 hp hp1 i rd hi
    have := h4 i rd hi
    rw [hgos] at this
    simpa [List.countP_append, List.countP_cons, hg1, hp, hp1] using this
  rcases hcase with ⟨hpc, rd, out, hrd, _, rfl⟩ | ⟨hpc, e, _, rfl⟩ | ⟨hpc, _, rfl⟩ |
    ⟨hpc, hg, rfl⟩ | ⟨hpc, hp, rfl⟩
  · refine ⟨?_, ?_, uniq_iff _ rfl, fun i rd1 hi => ?_⟩
    · simpa using mem_iff { g with pc := .downloaded, err := out.err } rfl
    · simpa using held_iff { g with pc := .downloaded, err := out.err } rfl
    · simp only at hi
      by_cases hig : g.reader = i
      · subst hig
        have hlt := lt_of_getElem?_some hrd
        rw [List.getElem?_set, if_pos rfl, if_pos hlt] at hi
        simp only [Option.some.injEq] at hi
        have := h4 g.reader rd hrd
        rw [hgos] at this
        rw [← hi]
        simp only [ReadCloser.Close, this, List.countP_append, List.countP_cons, hpc]
        simp
        omega
      · rw [List.getElem?_set_ne hig] at hi
        have := h4 i rd1 hi
        rw [hgos] at this
        simpa [List.countP_append, List.countP_cons, hig] using this
  · exact ⟨mem_iff _ rfl, held_iff _ rfl, uniq_iff _ rfl,
      closes_same _ rfl (by rw [hpc]; simp) (by simp)⟩
  · exact ⟨mem_iff _ rfl, held_iff _ rfl, uniq_iff _ rfl,
      closes_same _ rfl (by rw [hpc]; simp) (by simp)⟩
  · exact ⟨mem_iff _ rfl, held_iff _ rfl, uniq_iff _ rfl,
      closes_same _ rfl (by rw [hpc]; simp) (by simp)⟩
  · exact ⟨mem_iff _ rfl, held_iff _ rfl, uniq_iff _ rfl,
      closes_same _ rfl (by rw [hpc]; simp) (by simp)⟩

theorem reachable_readerInv {cfg : Config} {disk : Disk} {s : State}
    (h : Reachable cfg disk s) : ReaderInv s := by
  induction h with
  | init => exact readerInv_init disk
  | step a _ hs ih =>
    cases a with
    | main => exact readerInv_stepMain ih hs
    | go k => exact readerInv_stepGo ih hs

end B2

namespace B2

theorem stepGo_enabled {cfg : Config} {s : State} {k : Nat} {g : Goroutine}
    (hT : TicketInv cfg s) (hR : ReaderInv s) (hk : s.gos[k]? = some g)
    (hne : g.pc ≠ .exited) : ∃ s1, stepGo cfg s k = some s1 := by
  have hmem : g ∈ s.gos := List.getElem?_mem hk
  unfold stepGo
  simp only [hk]
  cases hpc : g.pc with
  | start =>
    have hlt := hR.lt g hmem
    have hsome : s.readers[g.reader]? = some (s.readers[g.reader]) :=
      List.getElem?_eq_getElem hlt
    simp only [hsome]
    exact ⟨_, rfl⟩
  | downloaded =>
    cases he : g.err with
    | some e => exact ⟨_, rfl⟩
    | none => exact ⟨_, rfl⟩
  | recorded =>
    have hpos : 0 < pending s := by
      unfold pending
      rw [List.countP_pos_iff]
      exact ⟨g, hmem, by simp [hpc]⟩
    have hgr : 0 < s.group := by rw [hT.group_eq]; exact hpos
    simp only [hgr, if_true]
    exact ⟨_, rfl⟩
  | released =>
    have hpos : 0 < holding s := by
      unfold holding
      rw [List.countP_pos_iff]
      exact ⟨g, hmem, by simp [hpc]⟩
    have hp : 0 < s.pool := Nat.lt_of_lt_of_le hpos hT.hold_le
    simp only [hp, if_true]
    exact ⟨_, rfl⟩
  | exited => exact absurd hpc hne

theorem exists_go_of_countP {s : State} {p : Goroutine → Bool}
    (h : 0 < s.gos.countP p) : ∃ (k : Nat) (g : Goroutine), s.gos[k]? = some g ∧ p g = true := by
  rw [List.countP_pos_iff] at h
  obtain ⟨g, hmem, hp⟩ := h
  obtain ⟨k, hk⟩ := List.getElem?_of_mem hmem
  exact ⟨k, g, hk, hp⟩

/-- While the main goroutine has not returned, some step is enabled (given a pool of
capacity at least one). -/
theorem progress {cfg : Config} {s : State} (hN : 1 ≤ cfg.Threads) (hT : TicketInv cfg s)
    (hR : ReaderInv s) (hret : s.returned = false) : ∃ a s1, step cfg s a = some s1 := by
  cases hpc : s.pc with
  | loop =>
    refine ⟨.main, ?_⟩
    simp only [step, stepMain, hpc]
    cases hn : cfg.names[s.next]? with
    | none => exact ⟨_, rfl⟩
    | some name =>
      cases hf : cfg.DownloadFileByName s.next name with
      | error e => simp only [hf]; exact ⟨_, rfl⟩
      | ok hd => simp only [hf]; exact ⟨_, rfl⟩
  | fetchFailed e =>
    exact ⟨.main, by simp only [step, stepMain, hpc]; exact ⟨_, rfl⟩⟩
  | send fi r =>
    by_cases hp : s.pool < cfg.Threads
    · exact ⟨.main, by simp only [step, stepMain, hpc, hp, if_true]; exact ⟨_, rfl⟩⟩
    · have hpool : s.pool = holding s := hT.hold_eq (Or.inr (Or.inr ⟨fi, r, hpc⟩))
      have hpos : 0 < s.gos.countP (fun g => g.pc ≠ .exited) := by
        have : 0 < holding s := by omega
        exact this
      obtain ⟨k, g, hk, hg⟩ := exists_go_of_countP hpos
      obtain ⟨s1, h1⟩ := stepGo_enabled hT hR hk (by simpa using hg)
      exact ⟨.go k, s1, h1⟩
  | check fi r =>
    refine ⟨.main, ?_⟩
    simp only [step, stepMain, hpc]
    cases hd : s.downloadError with
    | some e => exact ⟨_, rfl⟩
    | none => exact ⟨_, rfl⟩
  | wait =>
    by_cases hg : s.group = 0
    · exact ⟨.main, by simp only [step, stepMain, hpc, hg, if_true]; exact ⟨_, rfl⟩⟩
    · have hpos : 0 < s.gos.countP
          (fun g => g.pc = .start ∨ g.pc = .downloaded ∨ g.pc = .recorded) := by
        have : 0 < pending s := by rw [← hT.group_eq]; omega
        exact this
      obtain ⟨k, g, hk, hg1⟩ := exists_go_of_countP hpos
      have hne : g.pc ≠ .exited := by
        intro hex
        simp [hex] at hg1
      obtain ⟨s1, h1⟩ := stepGo_enabled hT hR hk hne
      exact ⟨.go k, s1, h1⟩
  | returned r => simp [State.returned, hpc] at hret

end B2

namespace B2

theorem errInv_init (disk : Disk) : ErrInv (init disk) := by
  constructor <;> simp [init]

theorem errInv_stepMain {cfg : Config} {s s1 : State} (h : ErrInv s)
    (hs : stepMain cfg s = some s1) : ErrInv s1 := by
  obtain ⟨h1, h2, h3, h4, h5, h6, h7, h8, h9, h10⟩ := h
  rcases stepMain_inv hs with ⟨hpc, _, rfl⟩ | ⟨hpc, name, e, _, _, rfl⟩ |
    ⟨hpc, name, hd, _, _, rfl⟩ | ⟨e, hpc, rfl⟩ | ⟨fi, r, hpc, hp, rfl⟩ |
    ⟨fi, r, e, hpc, hde, rfl⟩ | ⟨fi, r, hpc, hde, rfl⟩ | ⟨hpc, hg, rfl⟩
  · -- loop exits
    have hok := h5 (Or.inl hpc)
    refine ⟨h1, by simp, by simp, h4, by simp, by simp, h7, fun hx => ?_, h9, h10⟩
    obtain ⟨x, hx, hne⟩ := hx
    exact absurd (hok x hx) hne
  · -- fetch fails
    have hok := h5 (Or.inl hpc)
    refine ⟨h1, by simp, by simp, h4, by simp, ?_, fun e1 he1 => ?_, fun _ => ?_, h9, ?_⟩
    · intro e1 he1
      simp only [MainPc.fetchFailed.injEq] at he1
      subst he1
      exact ⟨name, by simp⟩
    · rcases h7 e1 he1 with ⟨n, hn⟩ | hg
      · exact Or.inl ⟨n, by simp [hn]⟩
      · exact Or.inr hg
    · exact Or.inl ⟨e, rfl⟩
    · simp [List.countP_append, h10]
  · -- fetch succeeds
    have hok := h5 (Or.inl hpc)
    refine ⟨h1, by simp, by simp, h4, fun _ x hx => ?_, by simp, fun e1 he1 => ?_,
      fun hx => ?_, h9, ?_⟩
    · simp only [List.mem_append, List.mem_singleton] at hx
      rcases hx with hx | rfl
      · exact hok x hx
      · rfl
    · rcases h7 e1 he1 with ⟨n, hn⟩ | hg
      · exact Or.inl ⟨n, by simp [hn]⟩
      · exact Or.inr hg
    · obtain ⟨x, hx, hne⟩ := hx
      simp only [List.mem_append, List.mem_singleton] at hx
      rcases hx with hx | rfl
      · exact absurd (hok x hx) hne
      · exact absurd rfl hne
    · simp [List.countP_append, h10]
  · -- the failure is recorded
    obtain ⟨name, hname⟩ := h6 e hpc
    refine ⟨by simp, by simp, by simp, h4, by simp, by simp, fun e1 he1 => ?_,
      fun _ => Or.inr (by simp), fun _ _ _ _ => by simp, h10⟩
    simp only [List.mem_append, List.mem_singleton] at he1
    rcases he1 with he1 | rfl
    · exact h7 e1 he1
    · exact Or.inl ⟨name, hname⟩
  · -- ticket
    have hok := h5 (Or.inr (Or.inl ⟨fi, r, hpc⟩))
    refine ⟨h1, by simp, by simp, h4, fun _ => hok, by simp, h7, fun hx => ?_, h9, h10⟩
    obtain ⟨x, hx, hne⟩ := hx
    exact absurd (hok x hx) hne
  · -- check fails
    have hok := h5 (Or.inr (Or.inr ⟨fi, r, hpc⟩))
    refine ⟨h1, by simp, by simp, h4, by simp, by simp, h7, fun hx => ?_, h9, h10⟩
    obtain ⟨x, hx, hne⟩ := hx
    exact absurd (hok x hx) hne
  · -- launch
    have hok := h5 (Or.inr (Or.inr ⟨fi, r, hpc⟩))
    refine ⟨h1, by simp, by simp, fun g hg hst => ?_, fun _ => hok, by simp,
      fun e1 he1 => ?_, fun hx => ?_, fun g hg hne hpast => ?_, h10⟩
    · simp only [List.mem_append, List.mem_singleton] at hg
      rcases hg with hg | rfl
      · exact h4 g hg hst
      · rfl
    · rcases h7 e1 he1 with hn | ⟨g, hg, hge⟩
      · exact Or.inl hn
      · exact Or.inr ⟨g, by simp [hg], hge⟩
    · obtain ⟨x, hx, hne⟩ := hx
      exact absurd (hok x hx) hne
    · simp only [List.mem_append, List.mem_singleton] at hg
      rcases hg with hg | rfl
      · exact h9 g hg hne hpast
      · exact absurd rfl hne
  · -- return
    refine ⟨h1, by simp, fun _ _ => hg, h4, by simp, by simp, h7, fun hx => ?_, h9, h10⟩
    rcases h8 hx with ⟨e, he⟩ | hr
    · rw [hpc] at he
      exact MainPc.noConfusion he
    · exact Or.inr hr

end B2

namespace B2

theorem errInv_stepGo {cfg : Config} {s s1 : State} {k : Nat} (h : ErrInv s)
    (hT : TicketInv cfg s) (hs : stepGo cfg s k = some s1) : ErrInv s1 := by
  obtain ⟨h1, h2, h3, h4, h5, h6, h7, h8, h9, h10⟩ := h
  obtain ⟨l1, g, l2, hgos, _, hcase⟩ := stepGo_inv hs
  have hgmem : g ∈ s.gos := by rw [hgos]; simp
  have hl1 : ∀ x ∈ l1, x ∈ s.gos := fun x hx => by rw [hgos]; simp [hx]
  have hl2 : ∀ x ∈ l2, x ∈ s.gos := fun x hx => by rw [hgos]; simp [hx]
  -- a returned run has no goroutine before its `group.Done()`
  have hnoret : (g.pc = .start ∨ g.pc = .downloaded ∨ g.pc = .recorded) →
      ∀ r, s.pc ≠ .returned r := by
    intro hg r hr
    have hz : pending s = 0 := by rw [← hT.group_eq]; exact h3 r hr
    unfold pending at hz
    rw [List.countP_eq_zero] at hz
    exact hz g hgmem (by simpa using hg)
  -- the generic shape of the fields that only look at the goroutines
  have fresh1 : ∀ g1 : Goroutine, g1.pc ≠ .start →
      ∀ x ∈ l1 ++ g1 :: l2, x.pc = .start → x.err = none := by
    intro g1 hg1 x hx hst
    simp only [List.mem_append, List.mem_cons] at hx
    rcases hx with hx | rfl | hx
    · exact h4 x (hl1 x hx) hst
    · exact absurd hst hg1
    · exact h4 x (hl2 x hx) hst
  have sound1 : ∀ g1 : Goroutine, (g.pc.past → g1.err = g.err ∧ g1.pc.past) →
      ∀ e ∈ s.recorded, (∃ name, (name, some e) ∈ s.fetched) ∨
        ∃ x ∈ l1 ++ g1 :: l2, x.err = some e ∧ x.pc.past := by
    intro g1 hg1 e he
    rcases h7 e he with hn | ⟨x, hx, hxe, hxp⟩
    · exact Or.inl hn
    · right
      rw [hgos] at hx
      simp only [List.mem_append, List.mem_cons] at hx
      rcases hx with hx | rfl | hx
      · exact ⟨x, by simp [hx], hxe, hxp⟩
      · obtain ⟨ha, hb⟩ := hg1 hxp
        exact ⟨g1, by simp, by rw [ha]; exact hxe, hb⟩
      · exact ⟨x, by simp [hx], hxe, hxp⟩
  have go1 : ∀ (g1 : Goroutine) (rec1 : List Error), (s.recorded ≠ [] → rec1 ≠ []) →
      (g1.err ≠ none → g1.pc.past → rec1 ≠ []) →
      ∀ x ∈ l1 ++ g1 :: l2, x.err ≠ none → x.pc.past → rec1 ≠ [] := by
    intro g1 rec1 hrec hg1 x hx hne hp
    simp only [List.mem_append, List.mem_cons] at hx
    rcases hx with hx | rfl | hx
    · exact hrec (h9 x (hl1 x hx) hne hp)
    · exact hg1 hne hp
    · exact hrec (h9 x (hl2 x hx) hne hp)
  rcases hcase with ⟨hpc, rd, out, hrd, _, rfl⟩ | ⟨hpc, e, he, rfl⟩ | ⟨hpc, he, rfl⟩ |
    ⟨hpc, hg, rfl⟩ | ⟨hpc, hp, rfl⟩
  · -- download
    refine ⟨h1, h2, h3, fresh1 _ (by simp), h5, h6, sound1 _ ?_, h8,
      go1 _ _ id ?_, by simpa using h10⟩
    · intro hp
      simp [GoPc.past, hpc] at hp
    · intro _ hp
      simp [GoPc.past] at hp
  · -- the error is recorded
    refine ⟨by simp, fun r hr => absurd hr (hnoret (Or.inr (Or.inl hpc)) r), h3,
      fresh1 _ (by simp), h5, h6, fun e1 he1 => ?_, fun _ => Or.inr (by simp),
      go1 _ _ (fun _ => by simp) (fun _ _ => by simp), h10⟩
    simp only [List.mem_append, List.mem_singleton] at he1
    rcases he1 with he1 | rfl
    · refine sound1 _ ?_ e1 he1
      intro hp
      simp [GoPc.past, hpc] at hp
    · exact Or.inr ⟨{ g with pc := .recorded }, by simp, he, by simp [GoPc.past]⟩
  · -- nothing to record
    refine ⟨h1, h2, h3, fresh1 _ (by simp), h5, h6, sound1 _ ?_, h8, go1 _ _ id ?_, h10⟩
    · intro hp
      simp [GoPc.past, hpc] at hp
    · intro hne _
      exact absurd he hne
  · -- group.Done()
    refine ⟨h1, h2, fun r hr => absurd hr (hnoret (Or.inr (Or.inr hpc)) r),
      fresh1 _ (by simp), h5, h6, sound1 _ ?_, h8, go1 _ _ id ?_, h10⟩
    · intro _
      exact ⟨rfl, by simp [GoPc.past]⟩
    · intro hne _
      exact h9 g hgmem hne (by simp [GoPc.past, hpc])
  · -- receive from the pool
    refine ⟨h1, h2, h3, fresh1 _ (by simp), h5, h6, sound1 _ ?_, h8, go1 _ _ id ?_, h10⟩
    · intro _
      exact ⟨rfl, by simp [GoPc.past]⟩
    · intro hne _
      exact h9 g hgmem hne (by simp [GoPc.past, hpc])

theorem reachable_errInv {cfg : Config} {disk : Disk} {s : State}
    (h : Reachable cfg disk s) : ErrInv s := by
  induction h with
  | init => exact errInv_init disk
  | step a hprev hs ih =>
    cases a with
    | main => exact errInv_stepMain ih hs
    | go k => exact errInv_stepGo ih (reachable_ticketInv hprev) hs

end B2

namespace B2

theorem fetchInv_init (cfg : Config) (disk : Disk) : FetchInv cfg (init disk) := by
  constructor <;> simp [init, fetchLog]

theorem fetchInv_stepMain {cfg : Config} {s s1 : State} (h : FetchInv cfg s)
    (hs : stepMain cfg s = some s1) : FetchInv cfg s1 := by
  obtain ⟨h1, h2, h3, h4, h5⟩ := h
  rcases stepMain_inv hs with ⟨hpc, hn, rfl⟩ | ⟨hpc, name, e, hn, hf, rfl⟩ |
    ⟨hpc, name, hd, hn, hf, rfl⟩ | ⟨e, hpc, rfl⟩ | ⟨fi, r, hpc, hp, rfl⟩ |
    ⟨fi, r, e, hpc, hde, rfl⟩ | ⟨fi, r, hpc, hde, rfl⟩ | ⟨hpc, hg, rfl⟩
  · -- loop exits
    have hok := h4 (Or.inl hpc)
    refine ⟨h1, h2, h3, by simp, fun _ => Or.inr ⟨?_, hok⟩⟩
    have hle : cfg.names.length ≤ s.next := List.getElem?_eq_none_iff.mp hn
    exact Nat.le_antisymm h2 hle
  · -- fetch fails
    have hok := h4 (Or.inl hpc)
    have hlt := lt_of_getElem?_some hn
    refine ⟨?_, hlt, fun j n hj hjn => hok j n (by simp only at hj; omega) hjn, by simp, by simp⟩
    simp [fetchLog, hn, fetchError, hf, h1]
  · -- fetch succeeds
    have hok := h4 (Or.inl hpc)
    have hlt := lt_of_getElem?_some hn
    refine ⟨?_, hlt, fun j n hj hjn => hok j n (by simp only at hj; omega) hjn, fun _ j n hj hjn => ?_, by simp⟩
    · simp [fetchLog, hn, fetchError, hf, h1]
    · by_cases hjs : j < s.next
      · exact hok j n hjs hjn
      · have hje : j = s.next := by
          simp only at hj
          omega
        subst hje
        rw [hn] at hjn
        simp only [Option.some.injEq] at hjn
        subst hjn
        simp [fetchError, hf]
  · exact ⟨h1, h2, h3, by simp, fun _ => Or.inl (by simp)⟩
  · exact ⟨h1, h2, h3, fun _ => h4 (Or.inr (Or.inl ⟨fi, r, hpc⟩)), by simp⟩
  · exact ⟨h1, h2, h3, by simp, fun _ => Or.inl (by simp [hde])⟩
  · exact ⟨h1, h2, h3, fun _ => h4 (Or.inr (Or.inr ⟨fi, r, hpc⟩)), by simp⟩
  · exact ⟨h1, h2, h3, by simp, fun _ => h5 (Or.inl hpc)⟩

theorem fetchInv_stepGo {cfg : Config} {s s1 : State} {k : Nat} (h : FetchInv cfg s)
    (hs : stepGo cfg s k = some s1) : FetchInv cfg s1 := by
  obtain ⟨h1, h2, h3, h4, h5⟩ := h
  obtain ⟨l1, g, l2, hgos, _, hcase⟩ := stepGo_inv hs
  rcases hcase with ⟨hpc, rd, out, hrd, _, rfl⟩ | ⟨hpc, e, he, rfl⟩ | ⟨hpc, he, rfl⟩ |
    ⟨hpc, hg, rfl⟩ | ⟨hpc, hp, rfl⟩
  · exact ⟨h1, h2, h3, h4, h5⟩
  · exact ⟨h1, h2, h3, h4, fun _ => Or.inl (by simp)⟩
  · exact ⟨h1, h2, h3, h4, h5⟩
  · exact ⟨h1, h2, h3, h4, h5⟩
  · exact ⟨h1, h2, h3, h4, h5⟩

theorem reachable_fetchInv {cfg : Config} {disk : Disk} {s : State}
    (h : Reachable cfg disk s) : FetchInv cfg s := by
  induction h with
  | init => exact fetchInv_init cfg disk
  | step a _ hs ih =>
    cases a with
    | main => exact fetchInv_stepMain ih hs
    | go k => exact fetchInv_stepGo ih hs

theorem fetchLog_length (cfg : Config) : ∀ n, n ≤ cfg.names.length →
    (fetchLog cfg n).length = n
  | 0, _ => rfl
  | n + 1, h => by
    have hlt : n < cfg.names.length := h
    have hsome : cfg.names[n]? = some (cfg.names[n]) := List.getElem?_eq_getElem hlt
    simp [fetchLog, hsome, fetchLog_length cfg n (Nat.le_of_lt hlt)]

theorem fetchLog_names (cfg : Config) : ∀ n, n ≤ cfg.names.length →
    (fetchLog cfg n).map Prod.fst = cfg.names.take n
  | 0, _ => by simp [fetchLog]
  | n + 1, h => by
    have hlt : n < cfg.names.length := h
    have hsome : cfg.names[n]? = some (cfg.names[n]) := List.getElem?_eq_getElem hlt
    have ih := fetchLog_names cfg n (Nat.le_of_lt hlt)
    rw [fetchLog, hsome, List.map_append, ih, List.take_succ, hsome]
    rfl

theorem fetchLog_mem (cfg : Config) (j : Nat) (name : String)
    (hj : cfg.names[j]? = some name) : ∀ n, j < n → (name, fetchError cfg j name) ∈ fetchLog cfg n
  | 0, h => absurd h (Nat.not_lt_zero j)
  | n + 1, h => by
    by_cases hjn : j < n
    · have ih := fetchLog_mem cfg j name hj n hjn
      unfold fetchLog
      exact List.mem_append_left _ ih
    · have hje : j = n := by omega
      subst hje
      unfold fetchLog
      rw [hj]
      exact List.mem_append_right _ (List.mem_singleton.mpr rfl)

end B2

namespace B2

theorem reachable_foldl {cfg : Config} {disk : Disk} : ∀ (sched : List Action) (s : State),
    Reachable cfg disk s → Reachable cfg disk (sched.foldl (stepOrStay cfg) s)
  | [], _, h => h
  | a :: rest, s, h => by
    simp only [List.foldl_cons]
    apply reachable_foldl rest
    unfold stepOrStay
    cases hs : step cfg s a with
    | none => exact h
    | some s1 => exact Reachable.step a h hs

theorem reachable_after (cfg : Config) (disk : Disk) (sched : List Action) :
    Reachable cfg disk (after cfg disk sched) :=
  reachable_foldl sched (init disk) Reachable.init

theorem after_append (cfg : Config) (disk : Disk) (sched : List Action) (a : Action) :
    after cfg disk (sched ++ [a]) = stepOrStay cfg (after cfg disk sched) a := by
  simp [after, List.foldl_append]

/-- Every reachable state is the state after some schedule. -/
theorem after_of_reachable {cfg : Config} {disk : Disk} {s : State}
    (h : Reachable cfg disk s) : ∃ sched, after cfg disk sched = s := by
  induction h with
  | init => exact ⟨[], rfl⟩
  | step a _ hs ih =>
    obtain ⟨sched, hsched⟩ := ih
    refine ⟨sched ++ [a], ?_⟩
    rw [after_append, hsched]
    simp [stepOrStay, hs]

/-- When the very first fetch fails, nothing is ever launched and the only error ever
recorded is that of the fetch. -/
theorem reachable_first_fails {cfg : Config} {disk : Disk} {name : String} {e : Error}
    (hname : cfg.names[0]? = some name) (hfail : cfg.DownloadFileByName 0 name = .error e)
    {s : State} (h : Reachable cfg disk s) :
    s.gos = [] ∧ ((s.pc = .loop ∧ s.next = 0) ∨ s.pc = .fetchFailed e ∨
      (s.pc = .wait ∧ s.downloadError = some e) ∨ s.pc = .returned (some e)) := by
  induction h with
  | init => exact ⟨rfl, Or.inl ⟨rfl, rfl⟩⟩
  | step a _ hs ih =>
    obtain ⟨hgos, hcase⟩ := ih
    cases a with
    | go k =>
      obtain ⟨l1, g, l2, hg, _, _⟩ := stepGo_inv hs
      rw [hgos] at hg
      simp at hg
    | main =>
      rcases stepMain_inv hs with ⟨hpc, hn, rfl⟩ | ⟨hpc, name1, e1, hn, hf, rfl⟩ |
        ⟨hpc, name1, hd, hn, hf, rfl⟩ | ⟨e1, hpc, rfl⟩ | ⟨fi, r, hpc, hp, rfl⟩ |
        ⟨fi, r, e1, hpc, hde, rfl⟩ | ⟨fi, r, hpc, hde, rfl⟩ | ⟨hpc, hg, rfl⟩
      all_goals
        rcases hcase with ⟨h1, h2⟩ | h1 | ⟨h1, h2⟩ | h1
        all_goals rw [hpc] at h1
        all_goals first
          | exact MainPc.noConfusion h1
          | refine ⟨hgos, ?_⟩
      · rw [h2, hname] at hn
        exact Option.noConfusion hn
      · rw [h2, hname] at hn
        simp only [Option.some.injEq] at hn
        subst hn
        rw [h2, hfail] at hf
        simp only [Except.error.injEq] at hf
        subst hf
        exact Or.inr (Or.inl rfl)
      · rw [h2, hname] at hn
        simp only [Option.some.injEq] at hn
        subst hn
        rw [h2, hfail] at hf
        exact Except.noConfusion hf
      · simp only [MainPc.fetchFailed.injEq] at h1
        subst h1
        exact Or.inr (Or.inr (Or.inl ⟨rfl, rfl⟩))
      · exact Or.inr (Or.inr (Or.inr (by rw [h2])))

end B2

namespace B2

theorem launchInv_init (disk : Disk) : LaunchInv (init disk) := by
  constructor <;> simp [init]

theorem launchInv_stepMain {cfg : Config} {s s1 : State} (h : LaunchInv s)
    (hs : stepMain cfg s = some s1) : LaunchInv s1 := by
  obtain ⟨h1, h2, h3, h4⟩ := h
  rcases stepMain_inv hs with ⟨hpc, _, rfl⟩ | ⟨hpc, _, _, _, _, rfl⟩ | ⟨hpc, name, hd, _, _, rfl⟩ |
    ⟨e, hpc, rfl⟩ | ⟨fi, r, hpc, hp, rfl⟩ | ⟨fi, r, e, hpc, hde, rfl⟩ | ⟨fi, r, hpc, _, rfl⟩ |
    ⟨hpc, hg, rfl⟩
  · exact ⟨h1, by simp, by simp, fun _ => Or.inl (h2 (Or.inl hpc))⟩
  · exact ⟨h1, fun _ => h2 (Or.inl hpc), by simp, by simp⟩
  · refine ⟨h1, by simp, fun fi r hr => ?_, by simp⟩
    simp only [MainPc.send.injEq, reduceCtorEq, or_false] at hr
    obtain ⟨_, hr⟩ := hr
    have := h2 (Or.inl hpc)
    simp only [List.length_append, List.length_singleton]
    omega
  · exact ⟨h1, by simp, by simp, fun _ => Or.inl (h2 (Or.inr ⟨e, hpc⟩))⟩
  · refine ⟨h1, by simp, fun fi1 r1 hr => ?_, by simp⟩
    simp only [reduceCtorEq, MainPc.check.injEq, false_or] at hr
    obtain ⟨hfi, hr1⟩ := hr
    subst hfi hr1
    exact h3 _ _ (Or.inl hpc)
  · exact ⟨h1, by simp, by simp, fun _ => Or.inr ⟨(h3 fi r (Or.inr hpc)).2, by simp [hde]⟩⟩
  · obtain ⟨hr, hlen⟩ := h3 fi r (Or.inr hpc)
    refine ⟨?_, fun _ => ?_, by simp, by simp⟩
    · simp only [List.map_append, List.map_cons, List.map_nil, List.length_append,
        List.length_singleton, List.range_succ, h1, hr]
    · simp only [List.length_append, List.length_singleton]
      exact hlen
  · exact ⟨h1, by simp, by simp, fun _ => h4 (Or.inl hpc)⟩

theorem launchInv_stepGo {cfg : Config} {s s1 : State} {k : Nat} (h : LaunchInv s)
    (hs : stepGo cfg s k = some s1) : LaunchInv s1 := by
  obtain ⟨h1, h2, h3, h4⟩ := h
  obtain ⟨l1, g, l2, hgos, _, hcase⟩ := stepGo_inv hs
  have hlen : ∀ g1 : Goroutine, (l1 ++ g1 :: l2).length = s.gos.length := by
    intro g1
    rw [hgos]
    simp
  have hmap : ∀ g1 : Goroutine, g1.reader = g.reader →
      (l1 ++ g1 :: l2).map (fun x => x.reader) = List.range (l1 ++ g1 :: l2).length := by
    intro g1 hg1
    rw [hlen g1, ← h1, hgos]
    simp [hg1]
  rcases hcase with ⟨hpc, rd, out, hrd, _, rfl⟩ | ⟨hpc, e, he, rfl⟩ | ⟨hpc, he, rfl⟩ |
    ⟨hpc, hg, rfl⟩ | ⟨hpc, hp, rfl⟩
  · refine ⟨hmap _ rfl, fun hp => ?_, fun fi r hr => ?_, fun hp => ?_⟩
    · simpa [hlen] using h2 hp
    · simpa [hlen] using h3 fi r hr
    · simpa [hlen] using h4 hp
  · refine ⟨hmap _ rfl, fun hp => ?_, fun fi r hr => ?_, fun hp => ?_⟩
    · simpa [hlen] using h2 hp
    · simpa [hlen] using h3 fi r hr
    · rcases h4 hp with h | ⟨h, _⟩
      · exact Or.inl (by simpa [hlen] using h)
      · exact Or.inr ⟨by simpa [hlen] using h, by simp⟩
  all_goals
    refine ⟨hmap _ rfl, fun hp => ?_, fun fi r hr => ?_, fun hp => ?_⟩
    · simpa [hlen] using h2 hp
    · simpa [hlen] using h3 fi r hr
    · simpa [hlen] using h4 hp

theorem reachable_launchInv {cfg : Config} {disk : Disk} {s : State}
    (h : Reachable cfg disk s) : LaunchInv s := by
  induction h with
  | init => exact launchInv_init disk
  | step a _ hs ih =>
    cases a with
    | main => exact launchInv_stepMain ih hs
    | go k => exact launchInv_stepGo ih hs

theorem countP_reader_eq_count (i : Nat) : ∀ l : List Goroutine,
    l.countP (fun g => g.reader = i) = (l.map (fun g => g.reader)).count i
  | [] => rfl
  | g :: rest => by
    have ih := countP_reader_eq_count i rest
    by_cases hg : g.reader = i
    · simp [List.countP_cons, List.count_cons, hg, ih]
    · simp [List.countP_cons, List.count_cons, hg, ih]

theorem countP_reader_eq_one {s : State} (h : LaunchInv s) (i : Nat) (hi : i < s.gos.length) :
    s.gos.countP (fun g => g.reader = i) = 1 := by
  rw [countP_reader_eq_count, h.order]
  exact List.count_eq_one_of_mem (List.nodup_range _) (List.mem_range.mpr hi)

end B2

namespace B2

theorem pipeInv_init (cfg : Config) (disk : Disk) : PipeInv cfg (init disk) := by
  constructor <;> simp [init]

theorem pipeInv_stepMain {cfg : Config} {s s1 : State} (h : PipeInv cfg s) (hL : LaunchInv s)
    (hs : stepMain cfg s = some s1) : PipeInv cfg s1 := by
  obtain ⟨h1, h2, h3⟩ := h
  rcases stepMain_inv hs with ⟨hpc, _, rfl⟩ | ⟨hpc, _, _, _, _, rfl⟩ |
    ⟨hpc, name, hd, hn, hf, rfl⟩ | ⟨e, hpc, rfl⟩ | ⟨fi, r, hpc, hp, rfl⟩ |
    ⟨fi, r, e, hpc, hde, rfl⟩ | ⟨fi, r, hpc, _, rfl⟩ | ⟨hpc, hg, rfl⟩
  · exact ⟨by simp, by simp, h3⟩
  · exact ⟨by simp, by simp, h3⟩
  · -- fetch succeeds
    have hnext := h1 hpc
    have hlen := hL.looping (Or.inl hpc)
    refine ⟨by simp, fun fi r hr => ?_, fun k g hk => ?_⟩
    · simp only [MainPc.send.injEq, reduceCtorEq, or_false] at hr
      obtain ⟨hfi, hr⟩ := hr
      subst hfi hr
      refine ⟨by simp [hnext], hlen, hd, ?_, ?_, rfl, ?_⟩
      · rw [← hnext]; exact hn
      · rw [← hnext]; exact hf
      · simp
    · obtain ⟨h, ha, hb, hc, hd1, he⟩ := h3 k g hk
      refine ⟨h, ha, hb, hc, hd1, ?_⟩
      have hklt : k < s.readers.length := lt_of_getElem?_some he
      simp only
      rw [List.getElem?_append_left hklt]
      exact he
  · exact ⟨by simp, by simp, h3⟩
  · refine ⟨by simp, fun fi1 r1 hr => ?_, h3⟩
    simp only [reduceCtorEq, MainPc.check.injEq, false_or] at hr
    obtain ⟨hfi, hr1⟩ := hr
    subst hfi hr1
    exact h2 _ _ (Or.inl hpc)
  · exact ⟨by simp, by simp, h3⟩
  · -- launch
    obtain ⟨hnext, hr, h, ha, hb, hc, hd⟩ := h2 fi r (Or.inr hpc)
    refine ⟨fun _ => by simp [hnext], by simp, fun k g hk => ?_⟩
    simp only at hk
    by_cases hklt : k < s.gos.length
    · rw [List.getElem?_append_left hklt] at hk
      exact h3 k g hk
    · have hle : s.gos.length ≤ k := Nat.le_of_not_lt hklt
      rw [List.getElem?_append_right hle] at hk
      cases hsub : k - s.gos.length with
      | zero =>
        rw [hsub] at hk
        simp only [List.getElem?_cons_zero, Option.some.injEq] at hk
        have hk0 : k = s.gos.length := by omega
        subst hk
        rw [hk0]
        refine ⟨h, ha, hb, hc, hr, ?_⟩
        simp only [if_true]
        rw [← hr]
        exact hd
      | succ m =>
        rw [hsub] at hk
        simp at hk
  · exact ⟨by simp, by simp, h3⟩

theorem getElem?_mid {α : Type} (l1 l2 : List α) (g : α) :
    (l1 ++ g :: l2)[l1.length]? = some g := by
  rw [List.getElem?_append_right (Nat.le_refl _), Nat.sub_self]
  exact List.getElem?_cons_zero

theorem getElem?_mid_ne {α : Type} (l1 l2 : List α) (g g1 : α) (j : Nat) (hj : j ≠ l1.length) :
    (l1 ++ g1 :: l2)[j]? = (l1 ++ g :: l2)[j]? := by
  by_cases hjl : j < l1.length
  · rw [List.getElem?_append_left hjl, List.getElem?_append_left hjl]
  · have hle : l1.length ≤ j := Nat.le_of_not_lt hjl
    rw [List.getElem?_append_right hle, List.getElem?_append_right hle]
    cases hsub : j - l1.length with
    | zero => omega
    | succ m => simp

theorem pipeInv_stepGo {cfg : Config} {s s1 : State} {k : Nat} (h : PipeInv cfg s)
    (hs : stepGo cfg s k = some s1) : PipeInv cfg s1 := by
  obtain ⟨h1, h2, h3⟩ := h
  obtain ⟨l1, g, l2, hgos, hl1, hcase⟩ := stepGo_inv hs
  have hgk : s.gos[k]? = some g := by
    rw [hgos, ← hl1]
    exact getElem?_mid l1 l2 g
  have hklt : k < s.gos.length := lt_of_getElem?_some hgk
  have hlen : ∀ g1 : Goroutine, (l1 ++ g1 :: l2).length = s.gos.length := by
    intro g1
    rw [hgos]
    simp
  -- the goroutines other than the `k`-th are untouched
  have hother : ∀ (g1 x : Goroutine) (j : Nat), j ≠ k → (l1 ++ g1 :: l2)[j]? = some x →
      s.gos[j]? = some x := by
    intro g1 x j hj hx
    rw [hgos, ← getElem?_mid_ne l1 l2 g g1 j (by rw [hl1]; exact hj)]
    exact hx
  have hself : ∀ (g1 x : Goroutine), (l1 ++ g1 :: l2)[k]? = some x → x = g1 := by
    intro g1 x hx
    rw [← hl1, getElem?_mid] at hx
    exact (Option.some.inj hx).symm
  -- steps that leave the streams alone and keep the goroutine past `.start`
  have hkeep : ∀ g1 : Goroutine, g1.file = g.file → g1.fileInfo = g.fileInfo →
      g1.reader = g.reader → g.pc ≠ .start → g1.pc ≠ .start →
      ∀ (j : Nat) (x : Goroutine), (l1 ++ g1 :: l2)[j]? = some x →
        ∃ h, cfg.names[j]? = some x.file ∧ cfg.DownloadFileByName j x.file = .ok h ∧
          x.fileInfo = h.fileInfo ∧ x.reader = j ∧
          s.readers[j]? = some (if x.pc = .start then h.reader else h.reader.Close) := by
    intro g1 hf hfi hr hp hp1 j x hx
    by_cases hj : j = k
    · subst hj
      have hxe := hself g1 x hx
      subst hxe
      obtain ⟨h, ha, hb, hc, hd, he⟩ := h3 j g hgk
      refine ⟨h, by rw [hf]; exact ha, by rw [hf]; exact hb, by rw [hfi]; exact hc,
        by rw [hr]; exact hd, ?_⟩
      rw [if_neg hp] at he
      rw [if_neg hp1]
      exact he
    · exact h3 j x (hother g1 x j hj hx)
  have hheld : ∀ g1 : Goroutine, ∀ fi r, (s.pc = .send fi r ∨ s.pc = .check fi r) →
      s.next = (l1 ++ g1 :: l2).length + 1 ∧ r = (l1 ++ g1 :: l2).length ∧
      ∃ h, cfg.names[(l1 ++ g1 :: l2).length]? = some s.file ∧
        cfg.DownloadFileByName (l1 ++ g1 :: l2).length s.file = .ok h ∧ fi = h.fileInfo ∧
        s.readers[r]? = some h.reader := by
    intro g1 fi r hr
    rw [hlen g1]
    exact h2 fi r hr
  have hloop : ∀ g1 : Goroutine, s.pc = .loop → s.next = (l1 ++ g1 :: l2).length := by
    intro g1 hp
    rw [hlen g1]
    exact h1 hp
  rcases hcase with ⟨hpc, rd, out, hrd, _, rfl⟩ | ⟨hpc, e, he, rfl⟩ | ⟨hpc, he, rfl⟩ |
    ⟨hpc, hg, rfl⟩ | ⟨hpc, hp, rfl⟩
  · -- download
    obtain ⟨h, ha, hb, hc, hd, he⟩ := h3 k g hgk
    rw [if_pos hpc] at he
    rw [hd] at hrd
    have hrdeq : rd = h.reader := by
      rw [he] at hrd
      exact (Option.some.inj hrd).symm
    refine ⟨hloop _, fun fi r hr => ?_, fun j x hx => ?_⟩
    · obtain ⟨hn, hr1, h0, hh⟩ := hheld { g with pc := .downloaded, err := out.err } fi r hr
      refine ⟨hn, hr1, h0, hh.1, hh.2.1, hh.2.2.1, ?_⟩
      simp only
      have hne : g.reader ≠ r := by
        rw [hd, hr1, hlen]
        omega
      rw [List.getElem?_set_ne hne]
      exact hh.2.2.2
    · simp only at hx ⊢
      by_cases hj : j = k
      · subst hj
        have hxe := hself _ x hx
        subst hxe
        refine ⟨h, ha, hb, hc, hd, ?_⟩
        have hlt : j < s.readers.length := lt_of_getElem?_some he
        rw [hd, List.getElem?_set, if_pos rfl, if_pos hlt, hrdeq]
        simp
      · obtain ⟨h0, ha0, hb0, hc0, hd0, he0⟩ := h3 j x (hother _ x j hj hx)
        refine ⟨h0, ha0, hb0, hc0, hd0, ?_⟩
        have hne : g.reader ≠ j := by
          rw [hd]
          exact fun hkj => hj hkj.symm
        rw [List.getElem?_set_ne hne]
        exact he0
  · exact ⟨hloop _, hheld _, hkeep _ rfl rfl rfl (by rw [hpc]; simp) (by simp)⟩
  · exact ⟨hloop _, hheld _, hkeep _ rfl rfl rfl (by rw [hpc]; simp) (by simp)⟩
  · exact ⟨hloop _, hheld _, hkeep _ rfl rfl rfl (by rw [hpc]; simp) (by simp)⟩
  · exact ⟨hloop _, hheld _, hkeep _ rfl rfl rfl (by rw [hpc]; simp) (by simp)⟩

theorem reachable_pipeInv {cfg : Config} {disk : Disk} {s : State}
    (h : Reachable cfg disk s) : PipeInv cfg s := by
  induction h with
  | init => exact pipeInv_init cfg disk
  | step a hprev hs ih =>
    cases a with
    | main => exact pipeInv_stepMain ih (reachable_launchInv hprev) hs
    | go k => exact pipeInv_stepGo ih hs

end B2

namespace B2

/-- What a step does to `downloadError` and to the history of assignments: a reported
failure is assigned whatever the variable holds, and no other step touches it. -/
theorem failure_step (cfg : Config) (s : State) (a : Action) :
    (stepOrStay cfg s a).downloadError = (failureAt s a).or s.downloadError ∧
    (stepOrStay cfg s a).recorded = s.recorded ++ (failureAt s a).toList := by
  cases hstep : step cfg s a with
  | none =>
    have hstay : stepOrStay cfg s a = s := by simp [stepOrStay, hstep]
    rw [hstay]
    cases a with
    | main =>
      cases hpc : s.pc with
      | fetchFailed e => simp [step, stepMain, hpc] at hstep
      | _ => simp [failureAt, hpc]
    | go k =>
      cases hg : s.gos[k]? with
      | none => simp [failureAt, hg]
      | some g =>
        cases hpc : g.pc with
        | downloaded =>
          cases he : g.err <;> simp [step, stepGo, hg, hpc, he] at hstep
        | _ => simp [failureAt, hg, hpc]
  | some s1 =>
    have hgo : stepOrStay cfg s a = s1 := by simp [stepOrStay, hstep]
    rw [hgo]
    cases a with
    | main =>
      rcases stepMain_inv hstep with ⟨hpc, _, rfl⟩ | ⟨hpc, _, _, _, _, rfl⟩ |
        ⟨hpc, _, _, _, _, rfl⟩ | ⟨e, hpc, rfl⟩ | ⟨fi, r, hpc, _, rfl⟩ |
        ⟨fi, r, e, hpc, _, rfl⟩ | ⟨fi, r, hpc, _, rfl⟩ | ⟨hpc, _, rfl⟩
      all_goals simp [failureAt, hpc]
    | go k =>
      obtain ⟨l1, g, l2, hgos, hl1, hcase⟩ := stepGo_inv hstep
      have hgk : s.gos[k]? = some g := by
        rw [hgos, ← hl1]
        exact getElem?_mid l1 l2 g
      have hfa : failureAt s (.go k) = if g.pc = .downloaded then g.err else none := by
        simp only [failureAt, hgk]
      rw [hfa]
      rcases hcase with ⟨hpc, rd, out, _, _, rfl⟩ | ⟨hpc, e, he, rfl⟩ | ⟨hpc, he, rfl⟩ |
        ⟨hpc, _, rfl⟩ | ⟨hpc, _, rfl⟩
      · simp [hpc]
      · simp [hpc, he]
      · simp [hpc, he]
      · simp [hpc]
      · simp [hpc]

theorem failures_foldl (cfg : Config) : ∀ (sched : List Action) (s : State),
    (sched.foldl (stepOrStay cfg) s).downloadError
      = (failuresFrom cfg s sched).getLast?.or s.downloadError ∧
    (sched.foldl (stepOrStay cfg) s).recorded = s.recorded ++ failuresFrom cfg s sched
  | [], s => by simp [failuresFrom]
  | a :: rest, s => by
    obtain ⟨h1, h2⟩ := failure_step cfg s a
    obtain ⟨ih1, ih2⟩ := failures_foldl cfg rest (stepOrStay cfg s a)
    simp only [List.foldl_cons, failuresFrom]
    refine ⟨?_, ?_⟩
    · rw [ih1, h1, List.getLast?_append]
      cases (failuresFrom cfg (stepOrStay cfg s a) rest).getLast? with
      | some e => simp
      | none => cases failureAt s a <;> simp
    · rw [ih2, h2, List.append_assoc]

/-- The step of a goroutine that stands before `download` stores the result of
`download`, called on the stream and metadata the goroutine holds. -/
theorem download_step (cfg : Config) (s : State) (k : Nat) (g : Goroutine) (rd : ReadCloser)
    (hk : s.gos[k]? = some g) (hpc : g.pc = .start) (hrd : s.readers[g.reader]? = some rd) :
    (stepOrStay cfg s (.go k)).gos[k]? = some { g with
      pc := .downloaded,
      err := (download cfg.fs s.disk g.fileInfo rd (downloadPath cfg s g)).err } := by
  have hlt : k < s.gos.length := lt_of_getElem?_some hk
  simp only [stepOrStay, step, stepGo, hk, hpc, hrd, Option.getD_some, downloadPath]
  rw [List.getElem?_set, if_pos rfl, if_pos hlt]

/-- A failing fetch is what the main goroutine reports at its next step. -/
theorem fetch_step (cfg : Config) (s : State) (name : String) (e : Error)
    (hpc : s.pc = .loop) (hn : cfg.names[s.next]? = some name)
    (hf : cfg.DownloadFileByName s.next name = .error e) :
    failureAt (stepOrStay cfg s .main) .main = some e := by
  simp [stepOrStay, step, stepMain, hpc, hn, hf, failureAt]

theorem mid_err (l1 l2 : List Goroutine) (g : Goroutine) (pc : GoPc) :
    ∃ g1, (l1 ++ { g with pc := pc } :: l2)[l1.length]? = some g1 ∧ g1.err = g.err :=
  ⟨{ g with pc := pc }, getElem?_mid l1 l2 _, rfl⟩

/-- Once `download` has returned, no step changes the error a goroutine holds. -/
theorem err_kept (cfg : Config) (s : State) (a : Action) (k : Nat) (g : Goroutine)
    (hk : s.gos[k]? = some g) (hpc : g.pc ≠ .start) :
    ∃ g1, (stepOrStay cfg s a).gos[k]? = some g1 ∧ g1.err = g.err := by
  cases hstep : step cfg s a with
  | none =>
    have hstay : stepOrStay cfg s a = s := by simp [stepOrStay, hstep]
    rw [hstay]
    exact ⟨g, hk, rfl⟩
  | some s1 =>
    have hgo : stepOrStay cfg s a = s1 := by simp [stepOrStay, hstep]
    rw [hgo]
    have hlt : k < s.gos.length := lt_of_getElem?_some hk
    cases a with
    | main =>
      rcases stepMain_inv hstep with ⟨_, _, rfl⟩ | ⟨_, _, _, _, _, rfl⟩ |
        ⟨_, _, _, _, _, rfl⟩ | ⟨e, _, rfl⟩ | ⟨fi, r, _, _, rfl⟩ |
        ⟨fi, r, e, _, _, rfl⟩ | ⟨fi, r, _, _, rfl⟩ | ⟨_, _, rfl⟩
      all_goals first
        | exact ⟨g, hk, rfl⟩
        | exact ⟨g, by simp only; rw [List.getElem?_append_left hlt]; exact hk, rfl⟩
    | go j =>
      obtain ⟨l1, g0, l2, hgos, hl1, hcase⟩ := stepGo_inv hstep
      by_cases hjk : k = j
      · subst hjk
        have hg0 : g0 = g := by
          rw [hgos, ← hl1, getElem?_mid] at hk
          exact Option.some.inj hk
        subst hg0
        rcases hcase with ⟨hp, _⟩ | ⟨_, e, _, rfl⟩ | ⟨_, _, rfl⟩ | ⟨_, _, rfl⟩ | ⟨_, _, rfl⟩
        · exact absurd hp hpc
        all_goals
          simp only
          rw [← hl1]
          exact mid_err l1 l2 g0 _
      · have hne : k ≠ l1.length := by rw [hl1]; exact hjk
        rw [hgos] at hk
        rcases hcase with ⟨_, rd, out, _, _, rfl⟩ | ⟨_, e, _, rfl⟩ | ⟨_, _, rfl⟩ |
          ⟨_, _, rfl⟩ | ⟨_, _, rfl⟩
        all_goals
          refine ⟨g, ?_, rfl⟩
          simp only
          rw [getElem?_mid_ne l1 l2 g0 _ k hne]
          exact hk

theorem fetchLog_mem_inv (cfg : Config) (x : String × Option Error) : ∀ n, x ∈ fetchLog cfg n →
    ∃ j name, j < n ∧ cfg.names[j]? = some name ∧ x = (name, fetchError cfg j name)
  | 0, h => by simp [fetchLog] at h
  | n + 1, h => by
    rw [fetchLog, List.mem_append] at h
    rcases h with h | h
    · obtain ⟨j, name, hj, hn, hx⟩ := fetchLog_mem_inv cfg x n h
      exact ⟨j, name, by omega, hn, hx⟩
    · cases hn : cfg.names[n]? with
      | none => simp [hn] at h
      | some name =>
        simp only [hn, List.mem_singleton] at h
        exact ⟨n, name, by omega, hn, h⟩

end B2

namespace B2

/-! ## Properties of `download` -/

set_option maxRecDepth 100000

/-- C1: when directory creation, file creation, every read and every write of the copy
succeed and the lowercase-hex SHA-1 of the stream's bytes equals `fileInfo.ContentSha1`,
`download` returns nil and the destination file holds exactly the stream's bytes. -/
theorem download_roundtrip (fs : FileSystem) (disk : Disk) (fileInfo : File)
    (reader : ReadCloser) (path : String)
    (hmk : fs.MkdirAll (fs.Dir path) = none) (hcr : fs.Create path = none)
    (hrd : reader.final = none) (hwr : WritesSucceed fs path [] reader.reads)
    (hsha : hexEncodeToString (sha1Sum reader.bytes) = fileInfo.ContentSha1) :
    (download fs disk fileInfo reader path).err = none ∧
    (download fs disk fileInfo reader path).disk path = some reader.bytes := by
  obtain ⟨h1, h2⟩ := download_of_copy fs disk fileInfo reader path hmk hcr hwr
  refine ⟨?_, h2⟩
  rw [h1, hrd]
  simp [hsha]

/-- Scenario A of the specification: hello with its correct digest is stored in `a.txt`
and the download succeeds. -/
theorem download_roundtrip_witness :
    (download okFs noDisk helloInfo helloReader "a.txt").err = none ∧
    (download okFs noDisk helloInfo helloReader "a.txt").disk "a.txt" = some helloBytes :=
  download_roundtrip okFs noDisk helloInfo helloReader "a.txt" rfl rfl rfl
    (by simp [WritesSucceed, helloReader, okFs]) (by decide)

/-- C2: when the copy completes without read or write error and the digest of the stream
differs from `fileInfo.ContentSha1`, `download` returns the integrity-mismatch error, whose
text is the one in the source, and the destination file holds exactly the downloaded
bytes. -/
theorem download_mismatch (fs : FileSystem) (disk : Disk) (fileInfo : File)
    (reader : ReadCloser) (path : String)
    (hmk : fs.MkdirAll (fs.Dir path) = none) (hcr : fs.Create path = none)
    (hrd : reader.final = none) (hwr : WritesSucceed fs path [] reader.reads)
    (hsha : hexEncodeToString (sha1Sum reader.bytes) ≠ fileInfo.ContentSha1) :
    (download fs disk fileInfo reader path).err = some .sha1Mismatch ∧
    Error.sha1Mismatch.text = "Downloaded data does not match SHA1 hash" ∧
    (download fs disk fileInfo reader path).disk path = some reader.bytes := by
  obtain ⟨h1, h2⟩ := download_of_copy fs disk fileInfo reader path hmk hcr hwr
  refine ⟨?_, rfl, h2⟩
  rw [h1, hrd]
  simp [hsha]

/-- Scenario C of the specification: a wrong expected digest gives the mismatch error and
leaves the downloaded bytes in `c.txt`. -/
theorem download_mismatch_witness :
    (download okFs noDisk wrongInfo helloReader "c.txt").err = some .sha1Mismatch ∧
    Error.sha1Mismatch.text = "Downloaded data does not match SHA1 hash" ∧
    (download okFs noDisk wrongInfo helloReader "c.txt").disk "c.txt" = some helloBytes :=
  download_mismatch okFs noDisk wrongInfo helloReader "c.txt" rfl rfl rfl
    (by simp [WritesSucceed, helloReader, okFs]) (by decide)

/-- C3 as stated fails: the copy of hello succeeds and the expected digest equals the
computed one ignoring letter case (it is the same digest in uppercase hex), yet `download`
reports the integrity mismatch. -/
theorem download_equalFold_counterexample :
    okFs.MkdirAll (okFs.Dir "a.txt") = none ∧ okFs.Create "a.txt" = none ∧
    helloReader.final = none ∧ WritesSucceed okFs "a.txt" [] helloReader.reads ∧
    equalFold upperInfo.ContentSha1 (hexEncodeToString (sha1Sum helloReader.bytes)) = true ∧
    (download okFs noDisk upperInfo helloReader "a.txt").err = some .sha1Mismatch :=
  ⟨rfl, rfl, rfl, by simp [WritesSucceed, helloReader, okFs], by decide, by decide⟩

/-- C3 amended: the digest check is an exact string comparison of the lowercase hex digest
with `fileInfo.ContentSha1`: when the copy succeeds, `download` succeeds exactly when the
two strings are equal, and reports the integrity mismatch otherwise, also when they differ
in letter case only. -/
theorem download_digest_exact (fs : FileSystem) (disk : Disk) (fileInfo : File)
    (reader : ReadCloser) (path : String)
    (hmk : fs.MkdirAll (fs.Dir path) = none) (hcr : fs.Create path = none)
    (hrd : reader.final = none) (hwr : WritesSucceed fs path [] reader.reads) :
    ((download fs disk fileInfo reader path).err = none ↔
      fileInfo.ContentSha1 = hexEncodeToString (sha1Sum reader.bytes)) ∧
    (fileInfo.ContentSha1 ≠ hexEncodeToString (sha1Sum reader.bytes) →
      (download fs disk fileInfo reader path).err = some .sha1Mismatch) := by
  obtain ⟨h1, _⟩ := download_of_copy fs disk fileInfo reader path hmk hcr hwr
  rw [h1, hrd]
  by_cases hsha : hexEncodeToString (sha1Sum reader.bytes) = fileInfo.ContentSha1
  · simp [hsha]
  · have hne : ¬ fileInfo.ContentSha1 = hexEncodeToString (sha1Sum reader.bytes) :=
      fun h => hsha h.symm
    simp [hsha, hne]

/-- The exact comparison at hello: the uppercase digest is rejected. -/
theorem download_digest_exact_witness :
    ((download okFs noDisk upperInfo helloReader "a.txt").err = none ↔
      upperInfo.ContentSha1 = hexEncodeToString (sha1Sum helloReader.bytes)) ∧
    (upperInfo.ContentSha1 ≠ hexEncodeToString (sha1Sum helloReader.bytes) →
      (download okFs noDisk upperInfo helloReader "a.txt").err = some .sha1Mismatch) :=
  download_digest_exact okFs noDisk upperInfo helloReader "a.txt" rfl rfl rfl
    (by simp [WritesSucceed, helloReader, okFs])

/-- C8: when a write of the copy fails with error `e` (after writes that succeeded), or
every write succeeds and the stream ends in a read error `e`, `download` returns `e`,
whatever value `sha` the field `fileInfo.ContentSha1` holds; `e` is not the
integrity-mismatch error. -/
theorem download_io_error (fs : FileSystem) (disk : Disk) (fileInfo : File)
    (reader : ReadCloser) (path : String) (e : Error) (sha : String)
    (hmk : fs.MkdirAll (fs.Dir path) = none) (hcr : fs.Create path = none)
    (hfail :
      (∃ pre b post, reader.reads = pre ++ b :: post ∧ WritesSucceed fs path [] pre ∧ b ≠ [] ∧
        (OsFile.Write fs { path := path, contents := pre.flatten } b).2.2 = some e) ∨
      (WritesSucceed fs path [] reader.reads ∧ ∃ c, reader.final = some c ∧ e = .external c)) :
    (download fs disk { fileInfo with ContentSha1 := sha } reader path).err = some e ∧
    e ≠ .sha1Mismatch := by
  rcases hfail with ⟨pre, b, post, hreads, hpre, hb, hw⟩ | ⟨hwr, c, hfin, he⟩
  · refine ⟨?_, osFile_write_err_ne fs _ b e hw⟩
    apply download_of_copy_error fs disk _ reader path e hmk hcr
    rw [hreads]
    exact ioCopy_write_fails fs path reader.final b post e hb pre _ rfl hpre
      (by simpa using hw)
  · obtain ⟨h1, _⟩ :=
      download_of_copy fs disk { fileInfo with ContentSha1 := sha } reader path hmk hcr hwr
    rw [h1, hfin, he]
    simp

/-- A read error after hello: the result is the read error although the expected digest
is the digest of the bytes copied so far. -/
theorem download_io_error_witness :
    (download okFs noDisk
        { helloInfo with ContentSha1 := "aaf4c61ddcc5e8a2dabede0f3b482cd9aea9434d" }
        brokenReader "a.txt").err = some (.external 104) ∧
    Error.external 104 ≠ .sha1Mismatch :=
  download_io_error okFs noDisk helloInfo brokenReader "a.txt" (.external 104)
    "aaf4c61ddcc5e8a2dabede0f3b482cd9aea9434d" rfl rfl
    (Or.inr ⟨by simp [WritesSucceed, brokenReader, okFs], 104, rfl, rfl⟩)

/-- C10: replacing `fileInfo.ContentLength` by any other value changes neither the error
`download` returns nor the disk it leaves nor the stream; and `progressWriter.Write`
returns the count and error of the file write and leaves the file as that write does,
whatever the bar holds. -/
theorem download_contentLength_irrelevant (fs : FileSystem) (disk : Disk) (fileInfo : File)
    (reader : ReadCloser) (path : String) (n : Int) :
    (download fs disk { fileInfo with ContentLength := n } reader path).err
      = (download fs disk fileInfo reader path).err ∧
    (download fs disk { fileInfo with ContentLength := n } reader path).disk
      = (download fs disk fileInfo reader path).disk ∧
    (download fs disk { fileInfo with ContentLength := n } reader path).reader
      = (download fs disk fileInfo reader path).reader ∧
    (∀ (p : progressWriter) (b : List Byte),
      (p.Write fs b).2 = (p.w.Write fs b).2 ∧ (p.Write fs b).1.w = (p.w.Write fs b).1) := by
  have hsame : Tee.SameButBar
      { sha := [], pw := { bar := { AddBar n with Width := 20 },
                           w := { path := path, contents := [] } } }
      { sha := [], pw := { bar := { AddBar fileInfo.ContentLength with Width := 20 },
                           w := { path := path, contents := [] } } } := ⟨rfl, rfl⟩
  obtain ⟨h2, hsha, hw⟩ := ioCopy_sameButBar fs reader.final reader.reads _ _ hsame
  refine ⟨?_, ?_, ?_, fun p b => ⟨rfl, rfl⟩⟩
  all_goals
    unfold download
    cases fs.MkdirAll (fs.Dir path) with
    | some c => rfl
    | none =>
      cases fs.Create path with
      | some c => rfl
      | none =>
        simp only [h2, hsha, hw]
        split
        · rfl
        · split <;> rfl

end B2

namespace B2

/-! ## Properties of `Execute` -/

/-- C4 as stated fails.  First run: the pipeline of `a.txt` reports error 13, then the
fetch of `b.txt` fails and its error 404 replaces it; `Execute` returns 404.  Second run:
the pipeline of `a.txt` reports 13, then the pipeline of `b.txt` reports 17 over it;
`Execute` returns 17.  In both, the returned error is not the first failure. -/
theorem first_failure_wins_counterexample :
    (after secondFetchFails noDisk
        [.main, .main, .main, .go 0, .go 0, .main, .main, .go 0, .main]).pc
      = .returned (some (.external 404)) ∧
    failures secondFetchFails noDisk
        [.main, .main, .main, .go 0, .go 0, .main, .main, .go 0, .main]
      = [.external 13, .external 404] ∧
    (after secondFetchFails noDisk
        [.main, .main, .main, .go 0, .go 0, .main, .main, .go 0, .main]).recorded
      = [.external 13, .external 404] ∧
    (after bothFetched noDisk
        [.main, .main, .main, .main, .main, .main, .go 0, .go 0, .go 1, .go 1, .go 0, .go 1,
         .main, .main]).pc
      = .returned (some (.external 17)) ∧
    failures bothFetched noDisk
        [.main, .main, .main, .main, .main, .main, .go 0, .go 0, .go 1, .go 1, .go 0, .go 1,
         .main, .main]
      = [.external 13, .external 17] ∧
    (after bothFetched noDisk
        [.main, .main, .main, .main, .main, .main, .go 0, .go 0, .go 1, .go 1, .go 0, .go 1,
         .main, .main]).recorded
      = [.external 13, .external 17] := by
  refine ⟨?_, ?_, ?_, ?_, ?_, ?_⟩ <;> decide

/-- C4 amended: last-failure-wins.  A step that reports a failure assigns it to
`downloadError` whatever the variable holds, and no other step changes the variable; a
failing fetch is reported by the next step of the main goroutine (line 57) and the error
`download` returns by the next step of its goroutine (line 79).  Hence `downloadError`
always holds the failure reported last, it is never reset to nil, and the error `Execute`
returns is the last failure of the run. -/
theorem last_failure_wins (cfg : Config) (disk : Disk) (sched : List Action) (a : Action) :
    (after cfg disk (sched ++ [a])).downloadError
      = (failureAt (after cfg disk sched) a).or (after cfg disk sched).downloadError ∧
    (∀ name e, (after cfg disk sched).pc = .loop →
      cfg.names[(after cfg disk sched).next]? = some name →
      cfg.DownloadFileByName (after cfg disk sched).next name = .error e →
      failureAt (after cfg disk (sched ++ [.main])) .main = some e) ∧
    (∀ (k : Nat) (g : Goroutine) (rd : ReadCloser),
      (after cfg disk sched).gos[k]? = some g → g.pc = .start →
      (after cfg disk sched).readers[g.reader]? = some rd →
      failureAt (after cfg disk (sched ++ [.go k])) (.go k)
        = (download cfg.fs (after cfg disk sched).disk g.fileInfo rd
            (downloadPath cfg (after cfg disk sched) g)).err) ∧
    (after cfg disk sched).downloadError = (failures cfg disk sched).getLast? ∧
    (after cfg disk sched).recorded = failures cfg disk sched ∧
    (failures cfg disk sched ≠ [] → (after cfg disk sched).downloadError ≠ none) ∧
    (∀ r, (after cfg disk sched).pc = .returned r →
      r = (failures cfg disk sched).getLast?) := by
  have hE := reachable_errInv (reachable_after cfg disk sched)
  obtain ⟨hd, hrec⟩ := failures_foldl cfg sched (init disk)
  have hlast : (after cfg disk sched).downloadError = (failures cfg disk sched).getLast? := by
    have hor : ∀ o : Option Error, o.or none = o := fun o => by cases o <;> rfl
    have : (after cfg disk sched).downloadError
        = (failuresFrom cfg (init disk) sched).getLast?.or none := hd
    rw [this, hor]
    rfl
  refine ⟨?_, fun name e hpc hn hf => ?_, fun k g rd hk hpc hrd => ?_, hlast, ?_,
    fun hne => ?_, fun r hr => ?_⟩
  · rw [after_append]
    exact (failure_step cfg _ a).1
  · rw [after_append]
    exact fetch_step cfg _ name e hpc hn hf
  · rw [after_append]
    have hstep := download_step cfg _ k g rd hk hpc hrd
    simp only [failureAt, hstep, if_true]
  · have : (after cfg disk sched).recorded = [] ++ failuresFrom cfg (init disk) sched := hrec
    simpa [failures] using this
  · rw [hlast]
    intro hnone
    exact hne (List.getLast?_eq_none_iff.mp hnone)
  · rw [hE.ret_eq r hr, hlast]

/-- C6: at every moment of every run, for every capacity and every list of names, the
pool holds at most `Threads` tickets, and the goroutines that have been launched and have
not finished `download` are at most as many as the tickets in the pool, hence at most
`Threads`. -/
theorem pool_bounds_downloads (cfg : Config) (disk : Disk) (sched : List Action) :
    0 ≤ (after cfg disk sched).pool ∧
    (after cfg disk sched).pool ≤ cfg.Threads ∧
    downloading (after cfg disk sched) ≤ (after cfg disk sched).pool ∧
    downloading (after cfg disk sched) ≤ cfg.Threads := by
  have hT := reachable_ticketInv (reachable_after cfg disk sched)
  have hle : downloading (after cfg disk sched) ≤ holding (after cfg disk sched) := by
    unfold downloading holding
    apply List.countP_mono_left
    intro g _ hg
    simp only [decide_eq_true_eq] at hg
    simp [hg]
  have h1 := hT.pool_le
  have h2 := hT.hold_le
  exact ⟨Nat.zero_le _, h1, by omega, by omega⟩

/-- C7 as stated fails: the pipeline of `a.txt` records an error while the main goroutine
fetches `b.txt`; the fetch succeeds and hands out a second stream, the check of
`downloadError` then leaves the loop, and `Execute` returns with that stream handed to no
pipeline and never closed. -/
theorem handle_closed_once_counterexample :
    (after bothFetched noDisk
        [.main, .main, .main, .go 0, .go 0, .main, .main, .main, .go 0, .main]).pc
      = .returned (some (.external 13)) ∧
    (after bothFetched noDisk
        [.main, .main, .main, .go 0, .go 0, .main, .main, .main, .go 0, .main]).fetched
      = [("a.txt", none), ("b.txt", none)] ∧
    (after bothFetched noDisk
        [.main, .main, .main, .go 0, .go 0, .main, .main, .main, .go 0, .main]).readers
      = [{ reads := [helloBytes], final := none, closes := 1 },
         { reads := [helloBytes], final := none, closes := 0 }] ∧
    (after bothFetched noDisk
        [.main, .main, .main, .go 0, .go 0, .main, .main, .main, .go 0, .main]).gos.map
        (fun g => g.reader) = [0] := by
  refine ⟨?_, ?_, ?_, ?_⟩ <;> decide

end B2

namespace B2

/-- C7 amended: every successful fetch hands out one stream; the streams are handed to
the pipelines in the order of the fetches, each to exactly one pipeline, except that the
stream fetched last may have none; no stream is ever closed more than once; and when
`Execute` returns, the stream of every launched pipeline has been closed exactly once,
whatever the pipelines returned, and a stream is left without pipeline only when the
returned error is not nil. -/
theorem launched_handle_closed_once (cfg : Config) (disk : Disk) (sched : List Action) :
    (after cfg disk sched).readers.length
      = (after cfg disk sched).fetched.countP (fun x => x.2 = none) ∧
    (after cfg disk sched).gos.length ≤ (after cfg disk sched).readers.length ∧
    (after cfg disk sched).readers.length ≤ (after cfg disk sched).gos.length + 1 ∧
    (∀ i, i < (after cfg disk sched).gos.length →
      (after cfg disk sched).gos.countP (fun g => g.reader = i) = 1) ∧
    (∀ i, (after cfg disk sched).gos.length ≤ i →
      (after cfg disk sched).gos.countP (fun g => g.reader = i) = 0) ∧
    (∀ (i : Nat) (rd : ReadCloser),
      (after cfg disk sched).readers[i]? = some rd → rd.closes ≤ 1) ∧
    (∀ r, (after cfg disk sched).pc = .returned r →
      (∀ i, i < (after cfg disk sched).gos.length →
        ∃ rd, (after cfg disk sched).readers[i]? = some rd ∧ rd.closes = 1) ∧
      ((after cfg disk sched).readers.length = (after cfg disk sched).gos.length + 1 →
        r ≠ none)) := by
  have hreach := reachable_after cfg disk sched
  have hR := reachable_readerInv hreach
  have hE := reachable_errInv hreach
  have hT := reachable_ticketInv hreach
  have hL := reachable_launchInv hreach
  have hbounds : (after cfg disk sched).gos.length ≤ (after cfg disk sched).readers.length ∧
      (after cfg disk sched).readers.length ≤ (after cfg disk sched).gos.length + 1 := by
    cases hpc : (after cfg disk sched).pc with
    | loop => have := hL.looping (Or.inl hpc); omega
    | fetchFailed e => have := hL.looping (Or.inr ⟨e, hpc⟩); omega
    | send fi r => have := (hL.held fi r (Or.inl hpc)).2; omega
    | check fi r => have := (hL.held fi r (Or.inr hpc)).2; omega
    | wait => rcases hL.left (Or.inl hpc) with h | ⟨h, _⟩ <;> omega
    | returned r => rcases hL.left (Or.inr ⟨r, hpc⟩) with h | ⟨h, _⟩ <;> omega
  have hle : ∀ (i : Nat) (rd : ReadCloser),
      (after cfg disk sched).readers[i]? = some rd → rd.closes ≤ 1 := by
    intro i rd hi
    rw [hR.closes i rd hi]
    refine Nat.le_trans ?_ (hR.uniq i)
    apply List.countP_mono_left
    intro x _ hx
    simp only [decide_eq_true_eq] at hx
    simp [hx.1]
  refine ⟨hE.handles, hbounds.1, hbounds.2, fun i hi => countP_reader_eq_one hL i hi,
    fun i hi => ?_, hle, fun r hr => ⟨fun i hi => ?_, fun hlen => ?_⟩⟩
  · rw [countP_reader_eq_count, hL.order]
    apply List.count_eq_zero_of_not_mem
    rw [List.mem_range]
    omega
  · have hlt : i < (after cfg disk sched).readers.length := by omega
    refine ⟨_, List.getElem?_eq_getElem hlt, ?_⟩
    have hsome := List.getElem?_eq_getElem hlt
    have hcl := hR.closes i _ hsome
    have hone := hle i _ hsome
    have hz : pending (after cfg disk sched) = 0 := by
      rw [← hT.group_eq]
      exact hE.ret_group r hr
    unfold pending at hz
    rw [List.countP_eq_zero] at hz
    have hex : 0 < (after cfg disk sched).gos.countP (fun g => g.reader = i) := by
      rw [countP_reader_eq_one hL i hi]
      exact Nat.one_pos
    rw [List.countP_pos_iff] at hex
    obtain ⟨g, hg, hgi⟩ := hex
    have hgpc := hz g hg
    have hpos : 0 < ((after cfg disk sched).readers[i]).closes := by
      rw [hcl, List.countP_pos_iff]
      refine ⟨g, hg, ?_⟩
      simp only [decide_eq_true_eq, not_or] at hgpc hgi
      simp [hgpc.1, hgi]
    omega
  · rw [hE.ret_eq r hr]
    rcases hL.left (Or.inr ⟨r, hr⟩) with h | ⟨_, h⟩
    · omega
    · exact h

/-- C5: when the fetch for the name at position `i` (counted from 0) fails with `e`, every
run issues its fetches in the order of the names and never for a name after position `i`;
the run returns (while it has not, some step is enabled, and every step lowers the
weight); the returned error is not nil, and it is `e` itself when `i` is the first
position. -/
theorem fetch_failure_stops (cfg : Config) (disk : Disk) (i : Nat) (name : String) (e : Error)
    (hN : 1 ≤ cfg.Threads) (hname : cfg.names[i]? = some name)
    (hfail : cfg.DownloadFileByName i name = .error e) (sched : List Action) :
    (after cfg disk sched).fetched.map Prod.fst
      = cfg.names.take (after cfg disk sched).fetched.length ∧
    (after cfg disk sched).fetched.length ≤ i + 1 ∧
    (∀ r, (after cfg disk sched).pc = .returned r → r ≠ none ∧ (i = 0 → r = some e)) ∧
    ((after cfg disk sched).returned = false →
      ∃ a s1, step cfg (after cfg disk sched) a = some s1) ∧
    (∀ a s1, step cfg (after cfg disk sched) a = some s1 →
      weight cfg s1 < weight cfg (after cfg disk sched)) := by
  have hreach := reachable_after cfg disk sched
  have hF := reachable_fetchInv hreach
  have hE := reachable_errInv hreach
  have hlen : (after cfg disk sched).fetched.length = (after cfg disk sched).next := by
    rw [hF.log]
    exact fetchLog_length cfg _ hF.next_le
  have hferr : fetchError cfg i name = some e := by simp [fetchError, hfail]
  have hilt : i < cfg.names.length := lt_of_getElem?_some hname
  refine ⟨?_, ?_, fun r hr => ⟨?_, fun hi => ?_⟩, fun hret => ?_, fun a s1 hs => weight_step hs⟩
  · rw [hlen, hF.log]
    exact fetchLog_names cfg _ hF.next_le
  · rw [hlen]
    by_contra hgt
    have hok := hF.ok_before i name (by omega) hname
    rw [hferr] at hok
    exact Option.noConfusion hok
  · rw [hE.ret_eq r hr]
    rcases hF.left (Or.inr ⟨r, hr⟩) with hne | ⟨hnext, hok⟩
    · exact hne
    · have hok1 := hok i name (by omega) hname
      rw [hferr] at hok1
      exact Option.noConfusion hok1
  · subst hi
    obtain ⟨_, hcase⟩ := reachable_first_fails hname hfail hreach
    rcases hcase with ⟨h1, _⟩ | h1 | ⟨h1, _⟩ | h1
    all_goals rw [hr] at h1
    all_goals first
      | exact MainPc.noConfusion h1
      | (simp only [MainPc.returned.injEq] at h1; exact h1)
  · exact progress hN (reachable_ticketInv hreach) (reachable_readerInv hreach) hret

/-- Scenario B of the specification: the fetch of `a.txt` fails, so `b.txt` is never
fetched and the run returns that error. -/
theorem fetch_failure_stops_witness :
    (after firstFetchFails noDisk [.main, .main, .main]).fetched.map Prod.fst
      = firstFetchFails.names.take (after firstFetchFails noDisk [.main, .main, .main]).fetched.length ∧
    (after firstFetchFails noDisk [.main, .main, .main]).fetched.length ≤ 0 + 1 ∧
    (∀ r, (after firstFetchFails noDisk [.main, .main, .main]).pc = .returned r →
      r ≠ none ∧ (0 = 0 → r = some (.external 404))) ∧
    ((after firstFetchFails noDisk [.main, .main, .main]).returned = false →
      ∃ a s1, step firstFetchFails (after firstFetchFails noDisk [.main, .main, .main]) a = some s1) ∧
    (∀ a s1, step firstFetchFails (after firstFetchFails noDisk [.main, .main, .main]) a = some s1 →
      weight firstFetchFails s1
        < weight firstFetchFails (after firstFetchFails noDisk [.main, .main, .main])) :=
  fetch_failure_stops firstFetchFails noDisk 0 "a.txt" (.external 404) (by decide) rfl
    rfl [.main, .main, .main]

/-- C9 amended: when `Client()` fails, or `client.Bucket` fails, or no bucket is found
(lines 33-44), `Execute` returns that error at once, with no fetch made.  Otherwise, with
a pool of capacity at least one,
`Execute` returns (while it has not, some step is enabled, and every step lowers the
weight).  When it returns, every launched pipeline has finished; the fetches made are
those of the first names, in order, with the answers of the storage client; the `k`-th
pipeline ran `download` on the handle fetched for the `k`-th name (its step stores the
result of `download`, which no later step changes); the result is nil exactly when no
fetch made failed and no launched pipeline returned an error, and then every name was
fetched successfully and had its pipeline; a returned error is the error of a failed
fetch or of a launched pipeline.  For an empty list of names the run returns nil after
two steps of the main goroutine. -/
theorem execute_result (client : Option Error) (bucket : Except Error Bool)
    (bucketName : String) (cfg : Config) (disk : Disk) (hN : 1 ≤ cfg.Threads)
    (sched : List Action) :
    (∀ e, client = some e →
      (Execute client bucket bucketName cfg disk sched).pc = .returned (some e) ∧
      (Execute client bucket bucketName cfg disk sched).fetched = [] ∧
      (Execute client bucket bucketName cfg disk sched).gos = []) ∧
    (∀ e, client = none → bucket = .error e →
      (Execute client bucket bucketName cfg disk sched).pc = .returned (some e) ∧
      (Execute client bucket bucketName cfg disk sched).fetched = [] ∧
      (Execute client bucket bucketName cfg disk sched).gos = []) ∧
    (client = none → bucket = .ok false →
      (Execute client bucket bucketName cfg disk sched).pc
        = .returned (some (.bucketNotFound bucketName)) ∧
      (Execute client bucket bucketName cfg disk sched).fetched = [] ∧
      (Execute client bucket bucketName cfg disk sched).gos = []) ∧
    (client = none → bucket = .ok true →
      Execute client bucket bucketName cfg disk sched = after cfg disk sched ∧
      (∀ r, (after cfg disk sched).pc = .returned r →
        (∀ g ∈ (after cfg disk sched).gos, g.pc = .released ∨ g.pc = .exited) ∧
        (after cfg disk sched).fetched = fetchLog cfg (after cfg disk sched).next ∧
        (∀ (k : Nat) (g : Goroutine), (after cfg disk sched).gos[k]? = some g →
          ∃ h, cfg.names[k]? = some g.file ∧ cfg.DownloadFileByName k g.file = .ok h ∧
            g.fileInfo = h.fileInfo ∧
            (after cfg disk sched).readers[k]? = some h.reader.Close) ∧
        (r = none ↔
          (∀ x ∈ (after cfg disk sched).fetched, x.2 = none) ∧
          (∀ g ∈ (after cfg disk sched).gos, g.err = none)) ∧
        (r = none →
          (after cfg disk sched).next = cfg.names.length ∧
          (after cfg disk sched).gos.length = cfg.names.length ∧
          ∀ j name, cfg.names[j]? = some name → fetchError cfg j name = none) ∧
        (∀ e, r = some e →
          (∃ j name, j < (after cfg disk sched).next ∧ cfg.names[j]? = some name ∧
            cfg.DownloadFileByName j name = .error e) ∨
          ∃ g ∈ (after cfg disk sched).gos, g.err = some e)) ∧
      (∀ (k : Nat) (g : Goroutine) (rd : ReadCloser),
        (after cfg disk sched).gos[k]? = some g → g.pc = .start →
        (after cfg disk sched).readers[g.reader]? = some rd →
        (after cfg disk (sched ++ [.go k])).gos[k]? = some { g with
          pc := .downloaded,
          err := (download cfg.fs (after cfg disk sched).disk g.fileInfo rd
            (downloadPath cfg (after cfg disk sched) g)).err }) ∧
      (∀ (a : Action) (k : Nat) (g : Goroutine),
        (after cfg disk sched).gos[k]? = some g → g.pc ≠ .start →
        ∃ g1, (after cfg disk (sched ++ [a])).gos[k]? = some g1 ∧ g1.err = g.err) ∧
      (cfg.names = [] → (after cfg disk [.main, .main]).pc = .returned none) ∧
      (cfg.names = [] → ∀ r, (after cfg disk sched).pc = .returned r → r = none) ∧
      ((after cfg disk sched).returned = false →
        ∃ a s1, step cfg (after cfg disk sched) a = some s1) ∧
      (∀ a s1, step cfg (after cfg disk sched) a = some s1 →
        weight cfg s1 < weight cfg (after cfg disk sched))) := by
  refine ⟨fun e hc => ?_, fun e hc hb => ?_, fun hc hb => ?_, fun hc hb => ?_⟩
  · simp [Execute, ExecuteSetup, hc, init]
  · simp [Execute, ExecuteSetup, hc, hb, init]
  · simp [Execute, ExecuteSetup, hc, hb, init]
  have hexec : Execute client bucket bucketName cfg disk sched = after cfg disk sched := by
    simp [Execute, ExecuteSetup, hc, hb]
  have hreach := reachable_after cfg disk sched
  have hF := reachable_fetchInv hreach
  have hE := reachable_errInv hreach
  have hT := reachable_ticketInv hreach
  have hR := reachable_readerInv hreach
  have hL := reachable_launchInv hreach
  have hP := reachable_pipeInv hreach
  have hfetchedLen : (after cfg disk sched).fetched.length = (after cfg disk sched).next := by
    rw [hF.log]
    exact fetchLog_length cfg _ hF.next_le
  -- what holds once the run has returned
  have hdone : ∀ r, (after cfg disk sched).pc = .returned r →
      (∀ g ∈ (after cfg disk sched).gos, g.pc = .released ∨ g.pc = .exited) ∧
      (r = none ↔
        (∀ x ∈ (after cfg disk sched).fetched, x.2 = none) ∧
        (∀ g ∈ (after cfg disk sched).gos, g.err = none)) ∧
      (∀ e, r = some e →
        (∃ name, (name, some e) ∈ (after cfg disk sched).fetched) ∨
        ∃ g ∈ (after cfg disk sched).gos, g.err = some e) := by
    intro r hr
    have hz : pending (after cfg disk sched) = 0 := by
      rw [← hT.group_eq]
      exact hE.ret_group r hr
    unfold pending at hz
    rw [List.countP_eq_zero] at hz
    have hfin : ∀ g ∈ (after cfg disk sched).gos, g.pc = .released ∨ g.pc = .exited := by
      intro g hg
      have hgpc := hz g hg
      simp only [decide_eq_true_eq, not_or] at hgpc
      cases hpc : g.pc with
      | start => exact absurd hpc hgpc.1
      | downloaded => exact absurd hpc hgpc.2.1
      | recorded => exact absurd hpc hgpc.2.2
      | released => exact Or.inl rfl
      | exited => exact Or.inr rfl
    have hpast : ∀ g ∈ (after cfg disk sched).gos, g.pc.past := by
      intro g hg
      rcases hfin g hg with h | h
      · exact Or.inr (Or.inl h)
      · exact Or.inr (Or.inr h)
    have hreq : r = (after cfg disk sched).recorded.getLast? := by
      rw [hE.ret_eq r hr, hE.err_last]
    have hsound : ∀ e, r = some e →
        (∃ name, (name, some e) ∈ (after cfg disk sched).fetched) ∨
        ∃ g ∈ (after cfg disk sched).gos, g.err = some e := by
      intro e he
      rw [hreq] at he
      have hmem : e ∈ (after cfg disk sched).recorded := List.mem_of_getLast?_eq_some he
      rcases hE.rec_sound e hmem with hn | ⟨g, hg, hge, _⟩
      · exact Or.inl hn
      · exact Or.inr ⟨g, hg, hge⟩
    refine ⟨hfin, ⟨fun hnone => ?_, fun hall => ?_⟩, hsound⟩
    · have hnil : (after cfg disk sched).recorded = [] := by
        rw [hreq] at hnone
        exact List.getLast?_eq_none_iff.mp hnone
      refine ⟨fun x hx => ?_, fun g hg => ?_⟩
      · by_contra hne
        rcases hE.rec_fetch ⟨x, hx, hne⟩ with ⟨e, he⟩ | hrec
        · rw [hr] at he
          exact MainPc.noConfusion he
        · exact hrec hnil
      · by_contra hne
        exact hE.rec_go g hg hne (hpast g hg) hnil
    · cases hrr : r with
      | none => rfl
      | some e =>
        rcases hsound e hrr with ⟨n, hn⟩ | ⟨g, hg, hge⟩
        · have := hall.1 _ hn
          exact Option.noConfusion this
        · rw [hall.2 g hg] at hge
          exact Option.noConfusion hge
  refine ⟨hexec, fun r hr => ?_, fun k g rd hk hpc hrd => ?_, fun a k g hk hpc => ?_,
    fun hnames => ?_, fun hnames r hr => ?_, fun hret => ?_, fun a s1 hs => weight_step hs⟩
  · obtain ⟨hfin, hiff, hsound⟩ := hdone r hr
    refine ⟨hfin, hF.log, fun k g hk => ?_, hiff, fun hnone => ?_, fun e he => ?_⟩
    · obtain ⟨h, ha, hb, hc, _, he⟩ := hP.gos k g hk
      have hne : g.pc ≠ .start := by
        rcases hfin g (List.getElem?_mem hk) with hp | hp <;> rw [hp] <;> simp
      rw [if_neg hne] at he
      exact ⟨h, ha, hb, hc, he⟩
    · have hdn : (after cfg disk sched).downloadError = none := by
        rw [← hE.ret_eq r hr]
        exact hnone
      have hall := hiff.mp hnone
      rcases hF.left (Or.inr ⟨r, hr⟩) with hne | ⟨hnext, hok⟩
      · exact absurd hdn hne
      · have hrl : (after cfg disk sched).readers.length = (after cfg disk sched).gos.length := by
          rcases hL.left (Or.inr ⟨r, hr⟩) with h | ⟨_, h⟩
          · exact h
          · exact absurd hdn h
        have hcount : (after cfg disk sched).fetched.countP (fun x => x.2 = none)
            = (after cfg disk sched).fetched.length := by
          rw [List.countP_eq_length]
          intro x hx
          simpa using hall.1 x hx
        refine ⟨hnext, ?_, fun j name hj => ?_⟩
        · rw [← hrl, hE.handles, hcount, hfetchedLen, hnext]
        · exact hok j name (by rw [hnext]; exact lt_of_getElem?_some hj) hj
    · rcases hsound e he with ⟨name, hn⟩ | hg
      · left
        rw [hF.log] at hn
        obtain ⟨j, name1, hj, hjn, hx⟩ := fetchLog_mem_inv cfg _ _ hn
        refine ⟨j, name1, hj, hjn, ?_⟩
        have hfe : fetchError cfg j name1 = some e := by
          have := congrArg Prod.snd hx
          exact this.symm
        unfold fetchError at hfe
        cases hdf : cfg.DownloadFileByName j name1 with
        | error e1 =>
          rw [hdf] at hfe
          simp only [Option.some.injEq] at hfe
          rw [hfe]
        | ok h =>
          rw [hdf] at hfe
          exact Option.noConfusion hfe
      · exact Or.inr hg
  · rw [after_append]
    exact download_step cfg _ k g rd hk hpc hrd
  · rw [after_append]
    exact err_kept cfg _ a k g hk hpc
  · simp [after, stepOrStay, step, stepMain, init, hnames]
  · have hnext : (after cfg disk sched).next = 0 := by
      have := hF.next_le
      rw [hnames] at this
      simpa using this
    have hfetched : (after cfg disk sched).fetched = [] := by
      rw [hF.log, hnext]
      rfl
    have hreaders : (after cfg disk sched).readers.length = 0 := by
      rw [hE.handles, hfetched]
      rfl
    have hgos : ∀ g ∈ (after cfg disk sched).gos, g.err = none := by
      intro g hg
      have := hR.lt g hg
      omega
    exact ((hdone r hr).2.1).mpr ⟨by rw [hfetched]; simp, hgos⟩
  · exact progress hN hT hR hret

/-- Scenario A of the specification: client and bucket are found, one name, a pool of
five, hello with its correct digest. -/
theorem execute_result_witness :
    (∀ e, (none : Option Error) = some e →
      (Execute (none : Option Error) (Except.ok true : Except Error Bool) "photos" scenarioA noDisk [.main, .main, .main, .go 0, .go 0, .go 0, .main, .main]).pc = .returned (some e) ∧
      (Execute (none : Option Error) (Except.ok true : Except Error Bool) "photos" scenarioA noDisk [.main, .main, .main, .go 0, .go 0, .go 0, .main, .main]).fetched = [] ∧
      (Execute (none : Option Error) (Except.ok true : Except Error Bool) "photos" scenarioA noDisk [.main, .main, .main, .go 0, .go 0, .go 0, .main, .main]).gos = []) ∧
    (∀ e, (none : Option Error) = none → (Except.ok true : Except Error Bool) = Except.error e →
      (Execute (none : Option Error) (Except.ok true : Except Error Bool) "photos" scenarioA noDisk [.main, .main, .main, .go 0, .go 0, .go 0, .main, .main]).pc = .returned (some e) ∧
      (Execute (none : Option Error) (Except.ok true : Except Error Bool) "photos" scenarioA noDisk [.main, .main, .main, .go 0, .go 0, .go 0, .main, .main]).fetched = [] ∧
      (Execute (none : Option Error) (Except.ok true : Except Error Bool) "photos" scenarioA noDisk [.main, .main, .main, .go 0, .go 0, .go 0, .main, .main]).gos = []) ∧
    ((none : Option Error) = none → (Except.ok true : Except Error Bool) = Except.ok false →
      (Execute (none : Option Error) (Except.ok true : Except Error Bool) "photos" scenarioA noDisk [.main, .main, .main, .go 0, .go 0, .go 0, .main, .main]).pc
        = .returned (some (.bucketNotFound "photos")) ∧
      (Execute (none : Option Error) (Except.ok true : Except Error Bool) "photos" scenarioA noDisk [.main, .main, .main, .go 0, .go 0, .go 0, .main, .main]).fetched = [] ∧
      (Execute (none : Option Error) (Except.ok true : Except Error Bool) "photos" scenarioA noDisk [.main, .main, .main, .go 0, .go 0, .go 0, .main, .main]).gos = []) ∧
    ((none : Option Error) = none → (Except.ok true : Except Error Bool) = Except.ok true →
      Execute (none : Option Error) (Except.ok true : Except Error Bool) "photos" scenarioA noDisk [.main, .main, .main, .go 0, .go 0, .go 0, .main, .main] = after scenarioA noDisk [.main, .main, .main, .go 0, .go 0, .go 0, .main, .main] ∧
      (∀ r, (after scenarioA noDisk [.main, .main, .main, .go 0, .go 0, .go 0, .main, .main]).pc = .returned r →
        (∀ g ∈ (after scenarioA noDisk [.main, .main, .main, .go 0, .go 0, .go 0, .main, .main]).gos, g.pc = .released ∨ g.pc = .exited) ∧
        (after scenarioA noDisk [.main, .main, .main, .go 0, .go 0, .go 0, .main, .main]).fetched = fetchLog scenarioA (after scenarioA noDisk [.main, .main, .main, .go 0, .go 0, .go 0, .main, .main]).next ∧
        (∀ (k : Nat) (g : Goroutine), (after scenarioA noDisk [.main, .main, .main, .go 0, .go 0, .go 0, .main, .main]).gos[k]? = some g →
          ∃ h, scenarioA.names[k]? = some g.file ∧ scenarioA.DownloadFileByName k g.file = .ok h ∧
            g.fileInfo = h.fileInfo ∧
            (after scenarioA noDisk [.main, .main, .main, .go 0, .go 0, .go 0, .main, .main]).readers[k]? = some h.reader.Close) ∧
        (r = none ↔
          (∀ x ∈ (after scenarioA noDisk [.main, .main, .main, .go 0, .go 0, .go 0, .main, .main]).fetched, x.2 = none) ∧
          (∀ g ∈ (after scenarioA noDisk [.main, .main, .main, .go 0, .go 0, .go 0, .main, .main]).gos, g.err = none)) ∧
        (r = none →
          (after scenarioA noDisk [.main, .main, .main, .go 0, .go 0, .go 0, .main, .main]).next = scenarioA.names.length ∧
          (after scenarioA noDisk [.main, .main, .main, .go 0, .go 0, .go 0, .main, .main]).gos.length = scenarioA.names.length ∧
          ∀ j name, scenarioA.names[j]? = some name → fetchError scenarioA j name = none) ∧
        (∀ e, r = some e →
          (∃ j name, j < (after scenarioA noDisk [.main, .main, .main, .go 0, .go 0, .go 0, .main, .main]).next ∧ scenarioA.names[j]? = some name ∧
            scenarioA.DownloadFileByName j name = .error e) ∨
          ∃ g ∈ (after scenarioA noDisk [.main, .main, .main, .go 0, .go 0, .go 0, .main, .main]).gos, g.err = some e)) ∧
      (∀ (k : Nat) (g : Goroutine) (rd : ReadCloser),
        (after scenarioA noDisk [.main, .main, .main, .go 0, .go 0, .go 0, .main, .main]).gos[k]? = some g → g.pc = .start →
        (after scenarioA noDisk [.main, .main, .main, .go 0, .go 0, .go 0, .main, .main]).readers[g.reader]? = some rd →
        (after scenarioA noDisk ([.main, .main, .main, .go 0, .go 0, .go 0, .main, .main] ++ [.go k])).gos[k]? = some { g with
          pc := .downloaded,
          err := (download scenarioA.fs (after scenarioA noDisk [.main, .main, .main, .go 0, .go 0, .go 0, .main, .main]).disk g.fileInfo rd
            (downloadPath scenarioA (after scenarioA noDisk [.main, .main, .main, .go 0, .go 0, .go 0, .main, .main]) g)).err }) ∧
      (∀ (a : Action) (k : Nat) (g : Goroutine),
        (after scenarioA noDisk [.main, .main, .main, .go 0, .go 0, .go 0, .main, .main]).gos[k]? = some g → g.pc ≠ .start →
        ∃ g1, (after scenarioA noDisk ([.main, .main, .main, .go 0, .go 0, .go 0, .main, .main] ++ [a])).gos[k]? = some g1 ∧ g1.err = g.err) ∧
      (scenarioA.names = [] → (after scenarioA noDisk [.main, .main]).pc = .returned none) ∧
      (scenarioA.names = [] → ∀ r, (after scenarioA noDisk [.main, .main, .main, .go 0, .go 0, .go 0, .main, .main]).pc = .returned r → r = none) ∧
      ((after scenarioA noDisk [.main, .main, .main, .go 0, .go 0, .go 0, .main, .main]).returned = false →
        ∃ a s1, step scenarioA (after scenarioA noDisk [.main, .main, .main, .go 0, .go 0, .go 0, .main, .main]) a = some s1) ∧
      (∀ a s1, step scenarioA (after scenarioA noDisk [.main, .main, .main, .go 0, .go 0, .go 0, .main, .main]) a = some s1 →
        weight scenarioA s1 < weight scenarioA (after scenarioA noDisk [.main, .main, .main, .go 0, .go 0, .go 0, .main, .main]))) :=
  execute_result none (.ok true) "photos" scenarioA noDisk (by decide)
    [.main, .main, .main, .go 0, .go 0, .go 0, .main, .main]

theorem zeroThreads_stuck : ∀ (sched : List Action) (s : State),
    (s = init noDisk ∨ s = after zeroThreads noDisk [.main]) →
    (sched.foldl (stepOrStay zeroThreads) s = init noDisk ∨
      sched.foldl (stepOrStay zeroThreads) s = after zeroThreads noDisk [.main])
  | [], _, h => h
  | a :: rest, s, h => by
    simp only [List.foldl_cons]
    apply zeroThreads_stuck rest
    rcases h with rfl | rfl
    · cases a with
      | main => exact Or.inr rfl
      | go k => exact Or.inl (by simp [stepOrStay, step, stepGo, init])
    · cases a with
      | main =>
        exact Or.inr (by simp [after, stepOrStay, step, stepMain, init, zeroThreads])
      | go k =>
        exact Or.inr (by simp [after, stepOrStay, step, stepMain, stepGo, init, zeroThreads])

/-- C9 as stated fails.  With an unknown bucket and an empty list of names `Execute`
returns the error of line 43 although no fetch failed and no pipeline ran, in every run.
With a pool of capacity zero and one name whose fetch succeeds, no run ever returns,
although no fetch fails and no pipeline returns an error. -/
theorem execute_result_counterexample :
    noNames.names = [] ∧
    (∀ sched, (Execute none (.ok false) "photos" noNames noDisk sched).pc
      = .returned (some (.bucketNotFound "photos"))) ∧
    (∀ sched, (Execute none (.ok false) "photos" noNames noDisk sched).fetched = []) ∧
    (∀ sched, (Execute none (.ok false) "photos" noNames noDisk sched).gos = []) ∧
    (∀ sched, (Execute none (.ok true) "photos" zeroThreads noDisk sched).returned = false) ∧
    (∀ sched, ∀ x ∈ (Execute none (.ok true) "photos" zeroThreads noDisk sched).fetched,
      x.2 = none) ∧
    (∀ sched, (Execute none (.ok true) "photos" zeroThreads noDisk sched).gos = []) := by
  have hstuck : ∀ sched, Execute none (.ok true) "photos" zeroThreads noDisk sched
        = init noDisk ∨
      Execute none (.ok true) "photos" zeroThreads noDisk sched
        = after zeroThreads noDisk [.main] := by
    intro sched
    exact zeroThreads_stuck sched (init noDisk) (Or.inl rfl)
  refine ⟨rfl, fun _ => rfl, fun _ => rfl, fun _ => rfl, fun sched => ?_, fun sched => ?_,
    fun sched => ?_⟩
  · rcases hstuck sched with h | h <;> rw [h] <;> rfl
  · rcases hstuck sched with h | h <;> rw [h] <;> decide
  · rcases hstuck sched with h | h <;> rw [h] <;> rfl

end B2
